import Mathlib

/-!
# superpack (`spack.go`)

A shallow embedding of the packing pipeline of `spack.go` and theorems about it.

* Go's `int64` is an `Int` reduced by `wrap64` wherever the source adds.
* The file system is an explicit state `FS`, a map from paths to regular files.
* The external libraries (`crypto/md5`, `archive/tar`, `compress/gzip`) are the fields
  of a parameter `Libs`; nothing is assumed about what they compute. What the operating
  system reports besides file contents (`os.TempDir()`, modes, times) is a parameter `Sys`.
* A `select` between a channel send and `ctx.Done()` is resolved by a `SelectCase`
  that the caller of a worker body supplies.
-/

namespace Spack

/-! ## Machine integers, bytes, errors -/

/-- Two's-complement reduction of an integer to the range of Go's `int64`. -/
def wrap64 (x : Int) : Int := (x + 2 ^ 63) % 2 ^ 64 - 2 ^ 63

/-- The values an `int64` can hold. -/
def IsInt64 (x : Int) : Prop := -(2 ^ 63) ≤ x ∧ x < 2 ^ 63

/-- A byte. -/
abbrev Byte := Fin 256

/-- The array type `[md5.Size]byte`, `md5.Size = 16`. -/
abbrev MD5Sum := { l : List Byte // l.length = 16 }

/-- The zero value of `[md5.Size]byte`. -/
def MD5Sum.zero : MD5Sum := ⟨List.replicate 16 0, by simp⟩

/-- The errors the embedded operations return. -/
inductive Err where
  | notExist (path : String)
  | exist (path : String)
  | invalidSeek
  | fileTooBig
  | canceled
  | walk (path : String)
  deriving DecidableEq

/-- The text of an error, `err.Error()`. -/
def Err.Error : Err → String
  | .notExist p => "open " ++ p ++ ": no such file or directory"
  | .exist p => "open " ++ p ++ ": file exists"
  | .invalidSeek => "seek: invalid argument"
  | .fileTooBig => "write: file too large"
  | .canceled => "context canceled"
  | .walk p => "lstat " ++ p ++ ": permission denied"

/-! ## The unit of work (`type result struct`) -/

/-- The struct `result` of `spack.go`. -/
structure result where
  path : String
  sum : MD5Sum
  offset : Int
  size : Int
  deriving DecidableEq

/-- The half-open byte range an item claims in the destination. -/
def result.range (r : result) : Set Int := Set.Ico r.offset (r.offset + r.size)

/-! ## File system state and the operating system -/

/-- File system state: the bytes of the regular file at each path, if any. -/
abbrev FS := String → Option (List Byte)

/-- The state with no file at all. -/
def FS.empty : FS := fun _ => none

/-- The state with bytes `d` stored at path `p`. -/
def FS.put (fs : FS) (p : String) (d : List Byte) : FS := fun q => if q = p then some d else fs q

/-- The state with nothing at path `p`. -/
def FS.remove (fs : FS) (p : String) : FS := fun q => if q = p then none else fs q

/-- The length of the file at `p`, zero when there is none. -/
def FS.size (fs : FS) (p : String) : Nat := ((fs p).getD []).length

/-- What the operating system answers besides file contents: `os.TempDir()`, and the mode
and modification time `Stat` reports for a path. -/
structure Sys where
  TempDir : String
  Mode : String → Nat
  ModTime : String → Int

/-- The part of `os.FileInfo` the program reads. -/
structure FileInfo where
  Size : Int
  Mode : Nat
  ModTime : Int
  deriving DecidableEq

/-- The call `os.Stat(path)` (and `s.Stat()` on an open file): the file's metadata, with
`Size` the length on disk, or an error when there is no file. -/
def osStat (S : Sys) (fs : FS) (path : String) : Except Err FileInfo :=
  match fs path with
  | some d => .ok ⟨(d.length : Int), S.Mode path, S.ModTime path⟩
  | none => .error (.notExist path)

/-- The call `ioutil.ReadFile(path)`. -/
def ReadFile (fs : FS) (path : String) : Except Err (List Byte) :=
  match fs path with
  | some d => .ok d
  | none => .error (.notExist path)

/-- The call `os.Rename(oldpath, newpath)`: the file moves, replacing what was at `newpath`. -/
def osRename (fs : FS) (oldpath newpath : String) : Except Err FS :=
  match fs oldpath with
  | some d => .ok ((fs.remove oldpath).put newpath d)
  | none => .error (.notExist oldpath)

/-- The bytes of a file after `s` is written at byte position `o`. An empty `s` issues no
write, so the file keeps its length; otherwise a gap between the end of the file and `o`
reads as zeros. -/
def writeAt (d : List Byte) (o : Nat) (s : List Byte) : List Byte :=
  if s = [] then d
  else (d ++ List.replicate (o - d.length) 0).take o ++ s ++ d.drop (o + s.length)

/-- The largest position a file offset (`off_t`, 64 bits, signed) can take. -/
def maxFileOffset : Int := 2 ^ 63 - 1

/-! ## External libraries -/

/-- The fields of `tar.Header` that `CompressFile` sets. -/
structure Header where
  Name : String
  Mode : Int
  Size : Int
  ModTime : Int
  deriving DecidableEq

/-- The library functions the program calls, as parameters: `md5.Sum`; the bytes a
`tar.Writer` emits for `WriteHeader(h)`, the data and `Flush()` (no end-of-archive
trailer, the writer is never closed); the bytes a `gzip.Writer` emits for a stream and
`Close()`. -/
structure Libs where
  md5Sum : List Byte → MD5Sum
  tarEntry : Header → List Byte → List Byte
  gzip : List Byte → List Byte

/-- One lowercase hexadecimal digit. -/
def hexDigit (n : Nat) : Char :=
  ['0', '1', '2', '3', '4', '5', '6', '7', '8', '9', 'a', 'b', 'c', 'd', 'e', 'f'].getD n '0'

/-- The two digits the verb `%x` prints for one byte. -/
def hexByte (b : Byte) : List Char := [hexDigit (b.val / 16), hexDigit (b.val % 16)]

/-- The verb `%x` applied to a byte array: two lowercase digits per byte, no separators. -/
def hex (l : List Byte) : String := String.mk (l.flatMap hexByte)

/-- The expression `fmt.Sprintf("%s/spack%x", os.TempDir(), i.sum)` of `CompressGroup`. -/
def cachePath (S : Sys) (sum : MD5Sum) : String := S.TempDir ++ "/spack" ++ hex sum.val

/-! ## Cancellation -/

/-- The case of a two-way `select` that fires: the send, or `<-ctx.Done()`. -/
inductive SelectCase where
  | send
  | done
  deriving DecidableEq

/-- The statement `select { case out <- v: ; case <-ctx.Done(): return ctx.Err() }`. -/
def select {α : Type} (c : SelectCase) (v : α) : Except Err α :=
  match c with
  | .send => .ok v
  | .done => .error .canceled

/-! ## `WriteGroup`: the sequencing goroutine -/

/-- One iteration of the loop of the first goroutine of `WriteGroup`: item `i` is received
with the accumulator at `offset`; on a send the item leaves with that offset and the
accumulator becomes `offset + i.size` (an `int64` addition); on cancellation the goroutine
returns `ctx.Err()`. -/
def WriteGroup.assignStep (offset : Int) (i : result) (c : SelectCase) :
    Except Err (result × Int) :=
  match c with
  | .send => .ok (⟨i.path, i.sum, offset, i.size⟩, wrap64 (offset + i.size))
  | .done => .error .canceled

/-- The first goroutine of `WriteGroup`, run on the items it receives, each with the case
its `select` takes: the items sent on `chunks`, the final accumulator, and the error
returned (`none` for `nil`). -/
def WriteGroup.assigner (offset : Int) : List (result × SelectCase) → List result × Int × Option Err
  | [] => ([], offset, none)
  | (i, c) :: rest =>
    match WriteGroup.assignStep offset i c with
    | .ok (r, offset') =>
      let out := WriteGroup.assigner offset' rest
      (r :: out.1, out.2.1, out.2.2)
    | .error e => ([], offset, some e)

/-- The items the sequencing goroutine sends on `chunks` when no `select` is cancelled. -/
def WriteGroup.chunks (input : List result) : List result :=
  (WriteGroup.assigner 0 (input.map fun i => (i, SelectCase.send))).1

/-- The items a run of the sequencing goroutine forwards: those received before the first
`select` that takes the cancellation case. -/
def WriteGroup.forwarded (evs : List (result × SelectCase)) : List result :=
  (evs.takeWhile fun e => e.2 = SelectCase.send).map Prod.fst

/-- The sum of the `size` fields of a list of items, as a mathematical integer. -/
def sumSizes (l : List result) : Int := (l.map result.size).sum

/-! ## `InsertFile` and the writer workers of `WriteGroup` -/

/-- The function `InsertFile(dst, src, offset)`. `OpenFile` with `O_WRONLY|O_CREATE`
creates an empty `dst` when there is none and never truncates; `Seek(offset, 0)` fails
on a negative offset; `io.Copy` writes all of `src` from that position and fails when a
write would pass the largest file offset. The state is returned on success only. When
`src` and `dst` are one file the copy would read what it writes; the theorems below are
about `src ≠ dst`. -/
def InsertFile (fs : FS) (dst src : String) (offset : Int) : Except Err FS :=
  let d := (fs dst).getD []
  let fs1 := fs.put dst d
  match fs1 src with
  | none => .error (.notExist src)
  | some s =>
    if offset < 0 then .error .invalidSeek
    else if s ≠ [] ∧ maxFileOffset < offset + s.length then .error .fileTooBig
    else .ok (fs1.put dst (writeAt d offset.toNat s))

/-- The loop body of a writer goroutine of `WriteGroup` for one item received from
`chunks`; `dst` is `os.Args[1]`. -/
def WriteGroup.worker (dst : String) (fs : FS) (i : result) (c : SelectCase) :
    Except Err (result × FS) :=
  match InsertFile fs dst i.path i.offset with
  | .error e => .error e
  | .ok fs1 =>
    match select c i with
    | .error e => .error e
    | .ok r => .ok (r, fs1)

/-- The writer goroutines applied to the items of `chunks` in the order `written`, no
`select` cancelled. -/
def WriteGroup.writeAll (dst : String) : FS → List result → Except Err FS
  | fs, [] => .ok fs
  | fs, i :: rest =>
    match WriteGroup.worker dst fs i SelectCase.send with
    | .error e => .error e
    | .ok (_, fs1) => WriteGroup.writeAll dst fs1 rest

/-! ## `MD5Group`, `CompressFile`, `CompressGroup` -/

/-- The loop body of a goroutine of `MD5Group` for one item. -/
def MD5Group.worker (L : Libs) (fs : FS) (i : result) (c : SelectCase) : Except Err result :=
  match ReadFile fs i.path with
  | .error e => .error e
  | .ok data => select c ⟨i.path, L.md5Sum data, 0, 0⟩

/-- The function `CompressFile(src)`: the name of the temporary file and the state in which
it holds the blob. `tmp` is the name `ioutil.TempFile("", "spack")` picks; it creates the
file exclusively, so a name in use is an error. -/
def CompressFile (L : Libs) (S : Sys) (tmp : String) (fs : FS) (src : String) :
    Except Err (String × FS) :=
  match fs src with
  | none => .error (.notExist src)
  | some data =>
    let sinfo : FileInfo := ⟨(data.length : Int), S.Mode src, S.ModTime src⟩
    match fs tmp with
    | some _ => .error (.exist tmp)
    | none =>
      let header : Header := ⟨src, (sinfo.Mode : Int), sinfo.Size, sinfo.ModTime⟩
      .ok (tmp, fs.put tmp (L.gzip (L.tarEntry header data)))

/-- The loop body of a goroutine of `CompressGroup` for one item. -/
def CompressGroup.worker (L : Libs) (S : Sys) (tmp : String) (fs : FS) (i : result)
    (c : SelectCase) : Except Err (result × FS) :=
  let path := cachePath S i.sum
  match osStat S fs path with
  | .ok info =>
    match select c (⟨path, i.sum, 0, info.Size⟩ : result) with
    | .error e => .error e
    | .ok r => .ok (r, fs)
  | .error _ =>
    match CompressFile L S tmp fs i.path with
    | .error e => .error e
    | .ok (tmpfile, fs1) =>
      match osRename fs1 tmpfile path with
      | .error e => .error e
      | .ok fs2 =>
        match osStat S fs2 path with
        | .error e => .error e
        | .ok info =>
          match select c (⟨path, i.sum, 0, info.Size⟩ : result) with
          | .error e => .error e
          | .ok r => .ok (r, fs2)

/-! ## `Archive` -/

/-- The item the producer goroutine of `Archive` sends for a path of `filelist`. -/
def Archive.item (f : String) : result := ⟨f, MD5Sum.zero, 0, 0⟩

/-- Where the item of one path of `filelist` stands in the pipeline: waiting on `files`;
hashed by an `MD5Group` worker; in a `CompressGroup` worker after a failed `Stat`, after
`CompressFile`, after `Rename`; sent on `archives`; sent on `chunks` with its offset;
inserted by a writer, which copied `n` bytes. -/
inductive Phase where
  | queued (f : String)
  | hashed (i : result)
  | missed (i : result)
  | compressed (i : result) (tmpfile : String)
  | renamed (i : result)
  | archived (r : result)
  | chunked (c : result)
  | written (c : result) (n : Nat)
  deriving DecidableEq

/-- One call a goroutine makes for the item at index `k`: `ReadFile` and `md5.Sum` in
`MD5Group`; the first `Stat`, `CompressFile` (with the name `TempFile` picks), `Rename` and
the second `Stat` in `CompressGroup`; the send of the sequencing goroutine; `InsertFile` in a
writer. -/
inductive Action where
  | hash (k : Nat)
  | stat (k : Nat)
  | compress (k : Nat) (tmp : String)
  | rename (k : Nat)
  | restat (k : Nat)
  | assign (k : Nat)
  | write (k : Nat)
  deriving DecidableEq

/-- The state of a run of `Archive`: the file system, the accumulator of the sequencing
goroutine, the chunks it has sent so far in the order sent, and the phase of every item. -/
structure State where
  fs : FS
  offset : Int
  chunks : List result
  phases : List Phase

/-- The state in which `Archive(ctx, filelist)` starts. -/
def Archive.init (fs : FS) (filelist : List String) : State :=
  ⟨fs, 0, [], filelist.map Phase.queued⟩

/-- One call of one goroutine, taken from the loop bodies of `MD5Group`, `CompressGroup` and
`WriteGroup` at the places where they call out; `none` when the item is not at that place
or the call returns an error. The calls of different items may follow one another in any
order, so two workers can both miss a cache path before either renames its blob. -/
def Archive.step (L : Libs) (S : Sys) (dst : String) (σ : State) : Action → Option State
  | .hash k =>
    match σ.phases[k]? with
    | some (.queued f) =>
      match MD5Group.worker L σ.fs (Archive.item f) SelectCase.send with
      | .ok h => some ⟨σ.fs, σ.offset, σ.chunks, σ.phases.set k (.hashed h)⟩
      | .error _ => none
    | _ => none
  | .stat k =>
    match σ.phases[k]? with
    | some (.hashed i) =>
      match osStat S σ.fs (cachePath S i.sum) with
      | .ok info =>
        some ⟨σ.fs, σ.offset, σ.chunks,
          σ.phases.set k (.archived ⟨cachePath S i.sum, i.sum, 0, info.Size⟩)⟩
      | .error _ => some ⟨σ.fs, σ.offset, σ.chunks, σ.phases.set k (.missed i)⟩
    | _ => none
  | .compress k tmp =>
    match σ.phases[k]? with
    | some (.missed i) =>
      match CompressFile L S tmp σ.fs i.path with
      | .ok (tmpfile, fs1) =>
        some ⟨fs1, σ.offset, σ.chunks, σ.phases.set k (.compressed i tmpfile)⟩
      | .error _ => none
    | _ => none
  | .rename k =>
    match σ.phases[k]? with
    | some (.compressed i tmpfile) =>
      match osRename σ.fs tmpfile (cachePath S i.sum) with
      | .ok fs2 => some ⟨fs2, σ.offset, σ.chunks, σ.phases.set k (.renamed i)⟩
      | .error _ => none
    | _ => none
  | .restat k =>
    match σ.phases[k]? with
    | some (.renamed i) =>
      match osStat S σ.fs (cachePath S i.sum) with
      | .ok info =>
        some ⟨σ.fs, σ.offset, σ.chunks,
          σ.phases.set k (.archived ⟨cachePath S i.sum, i.sum, 0, info.Size⟩)⟩
      | .error _ => none
    | _ => none
  | .assign k =>
    match σ.phases[k]? with
    | some (.archived r) =>
      match WriteGroup.assignStep σ.offset r SelectCase.send with
      | .ok (c, offset1) => some ⟨σ.fs, offset1, σ.chunks ++ [c], σ.phases.set k (.chunked c)⟩
      | .error _ => none
    | _ => none
  | .write k =>
    match σ.phases[k]? with
    | some (.chunked c) =>
      match WriteGroup.worker dst σ.fs c SelectCase.send with
      | .ok (c1, fs1) =>
        some ⟨fs1, σ.offset, σ.chunks, σ.phases.set k (.written c1 (FS.size σ.fs c.path))⟩
      | .error _ => none
    | _ => none

/-- The state after the calls of `acts`, one after another. -/
def Archive.run (L : Libs) (S : Sys) (dst : String) : State → List Action → Option State
  | σ, [] => some σ
  | σ, a :: rest =>
    match Archive.step L S dst σ a with
    | none => none
    | some σ1 => Archive.run L S dst σ1 rest

/-- Every item has been inserted. -/
def State.done (σ : State) : Prop := ∀ p ∈ σ.phases, ∃ c n, p = Phase.written c n

/-- A successful run of `Archive(ctx, filelist)` with destination `dst` from the file
system `fs`: the calls of `acts`, in that order, take the start state to `σ` and leave
every item inserted. -/
def Archive.Runs (L : Libs) (S : Sys) (dst : String) (fs : FS) (filelist : List String)
    (acts : List Action) (σ : State) : Prop :=
  Archive.run L S dst (Archive.init fs filelist) acts = some σ ∧ σ.done

/-- The size recorded for an item once it has its chunk, zero before. -/
def Phase.recorded : Phase → Int
  | .chunked c => c.size
  | .written c _ => c.size
  | _ => 0

/-- The sum an item carries once it is hashed. -/
def Phase.sum? : Phase → Option MD5Sum
  | .queued _ => none
  | .hashed i => some i.sum
  | .missed i => some i.sum
  | .compressed i _ => some i.sum
  | .renamed i => some i.sum
  | .archived r => some r.sum
  | .chunked c => some c.sum
  | .written c _ => some c.sum

/-- An item sent on `archives` or later names the cache path of its sum. -/
def Phase.atCachePath (S : Sys) : Phase → Prop
  | .archived r => r.path = cachePath S r.sum
  | .chunked c => c.path = cachePath S c.sum
  | .written c _ => c.path = cachePath S c.sum
  | _ => True

/-! ## `main` -/

/-- One call of the function `main` passes to `filepath.Walk`: the path, whether
`info.Mode().IsRegular()`, and the error argument. -/
structure WalkEntry where
  path : String
  regular : Bool
  err : Option Err

/-- The function literal `main` passes to `filepath.Walk`, with the slice `test` as state:
the slice afterwards and the value returned. -/
def main.walkFn (test : List String) (e : WalkEntry) : List String × Option Err :=
  match e.err with
  | some err => (test, some err)
  | none => if !e.regular then (test, none) else (test ++ [e.path], none)

/-- The call `filepath.Walk(root, walkFn)` on the calls it would make for its tree, in
traversal order: it stops at the first call that returns an error and returns that error. -/
def filepathWalk : List WalkEntry → List String → List String × Option Err
  | [], test => (test, none)
  | e :: rest, test =>
    match main.walkFn test e with
    | (test1, some err) => (test1, some err)
    | (test1, none) => filepathWalk rest test1

/-- How the process ends: the exit status and the line logged. -/
structure Exit where
  status : Nat
  logged : String
  deriving DecidableEq

/-- The call `log.Fatal(v)`: print `v`, then `os.Exit(1)`. -/
def logFatal (v : String) : Exit := ⟨1, v⟩

/-- The text `log.Fatal` prints for a value of type `error`. -/
def printError : Option Err → String
  | none => "<nil>"
  | some e => e.Error

/-- The function `main`. `args` is `os.Args`, `tree root` the calls `filepath.Walk` makes
for `root`, and `archive dst filelist` the value `Archive` returns. -/
def main (args : List String) (tree : String → List WalkEntry)
    (archive : String → List String → Option Err) : Exit :=
  if args.length ≠ 3 then logFatal "Invalid args!"
  else
    let walked := filepathWalk (tree (args.getD 2 "")) []
    logFatal (printError (archive (args.getD 1 "") walked.1))

/-! ## Sample inputs -/

/-- A sample instance of the library parameter, used at concrete inputs: the sum is the
first 16 bytes of the data, zero-padded; a tar entry is one byte per character of the
name followed by the data; the gzip stream is two magic bytes followed by the data. -/
def sampleLibs : Libs where
  md5Sum d := ⟨(d ++ List.replicate 16 0).take 16, by simp⟩
  tarEntry h d := (h.Name.toList.map fun c => (Fin.ofNat c.toNat : Byte)) ++ d
  gzip d := [31, 139] ++ d

/-- A sample operating system: temporary directory `/tmp`, mode `0644`, time 0. -/
def sampleSys : Sys := ⟨"/tmp", fun _ => 420, fun _ => 0⟩

/-- A sample state: two blobs in the temporary directory and nothing else. -/
def sampleBlobs : FS := (FS.empty.put "/tmp/b0" [1, 2, 3]).put "/tmp/b1" [4, 5]

/-- The bytes of the scenario file: `hello world` and a newline. -/
def helloWorld : List Byte := [104, 101, 108, 108, 111, 32, 119, 111, 114, 108, 100, 10]

/-- A sample state: two files `a` and `b` with the same bytes. -/
def sampleTree : FS := (FS.empty.put "a" helloWorld).put "b" helloWorld

/-- The cache path of the scenario content under the sample parameters. -/
def samplePath : String := cachePath sampleSys (sampleLibs.md5Sum helloWorld)

/-- The blob `CompressFile` produces for file `a` under the sample parameters. -/
def sampleBlob : List Byte :=
  sampleLibs.gzip (sampleLibs.tarEntry ⟨"a", 420, 12, 0⟩ helloWorld)

/-- The state after both files of `sampleTree` passed the hashing and compression stages:
the blob of `a` sits at the cache path, the temporary file is gone. -/
def sampleCached : FS := ((sampleTree.put "/tmp/spack1" sampleBlob).remove "/tmp/spack1").put
  samplePath sampleBlob

/-- A schedule for the files `a` and `b` of `sampleTree` in which `a` is cached before `b`
is looked up: `a` misses and is compressed, `b` hits. -/
def sampleSchedule : List Action :=
  [.hash 0, .stat 0, .compress 0 "/tmp/spack1", .rename 0, .restat 0, .hash 1, .stat 1,
    .assign 0, .assign 1, .write 0, .write 1]

/-- A sample state: files `a` and `bb` with the same bytes. -/
def sampleTree2 : FS := (FS.empty.put "a" helloWorld).put "bb" helloWorld

/-- A schedule for the files `a` and `bb` of `sampleTree2` in which both workers miss the
cache path before either renames its blob, the item of `bb` reaches the sequencing
goroutine first, and both insertions come last. -/
def sampleOverlap : List Action :=
  [.hash 0, .hash 1, .stat 0, .stat 1, .compress 0 "/tmp/spack1", .compress 1 "/tmp/spack2",
    .rename 0, .restat 0, .rename 1, .restat 1, .assign 1, .assign 0, .write 0, .write 1]

/-- A schedule for the files `a` and `bb` of `sampleTree2` in which both workers miss the
cache path, the item of `a` is compressed, sent on and inserted, and only then the blob of
`bb` replaces the blob of `a` at the cache path. -/
def sampleReplace : List Action :=
  [.hash 0, .hash 1, .stat 0, .stat 1, .compress 0 "/tmp/spack1", .rename 0, .restat 0,
    .assign 0, .write 0, .compress 1 "/tmp/spack2", .rename 1, .restat 1, .assign 1, .write 1]

/-- A second sample instance of the library parameter: it agrees with `sampleLibs` on
streams shorter than 64 bytes and appends a byte to longer ones. -/
def sampleLibs2 : Libs where
  md5Sum := sampleLibs.md5Sum
  tarEntry := sampleLibs.tarEntry
  gzip d := [31, 139] ++ d ++ (if d.length < 64 then [] else [0])

/-- A sample traversal: the root directory, a regular file, an entry that cannot be read,
and a regular file after it. -/
def sampleWalk : List WalkEntry :=
  [⟨"root", false, none⟩, ⟨"root/a", true, none⟩,
    ⟨"root/b", false, some (.walk "root/b")⟩, ⟨"root/c", true, none⟩]

/-! ## Sizes of a pack -/

/-- The pack size as the specification states it: the blob lengths summed once per
distinct content hash of the input files. -/
def Archive.dedupSize (L : Libs) (S : Sys) (fs : FS) (filelist : List String) : Int :=
  (((filelist.map fun f => L.md5Sum ((fs f).getD [])).dedup).map fun h =>
    (FS.size fs (cachePath S h) : Int)).sum

/-! ## Auxiliary definitions for the proofs -/

/-- The write a chunk stands for in state `fs`: the position and the bytes of its blob. -/
def toWrite (fs : FS) (c : result) : Nat × List Byte := (c.offset.toNat, (fs c.path).getD [])

/-- A file's bytes after a list of positional writes, applied from left to right. -/
def applyWrites (d : List Byte) (ws : List (Nat × List Byte)) : List Byte :=
  ws.foldl (fun d w => writeAt d w.1 w.2) d

/-- Two writes that touch no common byte: one is empty, or their ranges do not meet. -/
def Compatible (a b : Nat × List Byte) : Prop :=
  a.2 = [] ∨ b.2 = [] ∨ a.1 + a.2.length ≤ b.1 ∨ b.1 + b.2.length ≤ a.1

/-- Writes laid back to back from position `start`. -/
def Tiled : Nat → List (Nat × List Byte) → Prop
  | _, [] => True
  | start, w :: rest => w.1 = start ∧ Tiled (start + w.2.length) rest

/-- The cases of `Archive.step`, spelled out for proofs by cases: what each call requires
of the state and what it leaves. -/
inductive Archive.StepOf (L : Libs) (S : Sys) (dst : String) (σ : State) :
    Action → State → Prop where
  | hash (k : Nat) (f : String) (d : List Byte)
      (hk : σ.phases[k]? = some (.queued f)) (hd : σ.fs f = some d) :
      Archive.StepOf L S dst σ (.hash k)
        ⟨σ.fs, σ.offset, σ.chunks, σ.phases.set k (.hashed ⟨f, L.md5Sum d, 0, 0⟩)⟩
  | hit (k : Nat) (i : result) (b : List Byte)
      (hk : σ.phases[k]? = some (.hashed i)) (hb : σ.fs (cachePath S i.sum) = some b) :
      Archive.StepOf L S dst σ (.stat k)
        ⟨σ.fs, σ.offset, σ.chunks,
          σ.phases.set k (.archived ⟨cachePath S i.sum, i.sum, 0, (b.length : Int)⟩)⟩
  | miss (k : Nat) (i : result)
      (hk : σ.phases[k]? = some (.hashed i)) (hb : σ.fs (cachePath S i.sum) = none) :
      Archive.StepOf L S dst σ (.stat k)
        ⟨σ.fs, σ.offset, σ.chunks, σ.phases.set k (.missed i)⟩
  | compress (k : Nat) (tmp : String) (i : result) (d : List Byte)
      (hk : σ.phases[k]? = some (.missed i)) (hd : σ.fs i.path = some d)
      (ht : σ.fs tmp = none) :
      Archive.StepOf L S dst σ (.compress k tmp)
        ⟨σ.fs.put tmp (L.gzip (L.tarEntry
            ⟨i.path, (S.Mode i.path : Int), (d.length : Int), S.ModTime i.path⟩ d)),
          σ.offset, σ.chunks, σ.phases.set k (.compressed i tmp)⟩
  | rename (k : Nat) (i : result) (t : String) (b : List Byte)
      (hk : σ.phases[k]? = some (.compressed i t)) (hb : σ.fs t = some b) :
      Archive.StepOf L S dst σ (.rename k)
        ⟨(σ.fs.remove t).put (cachePath S i.sum) b, σ.offset, σ.chunks,
          σ.phases.set k (.renamed i)⟩
  | restat (k : Nat) (i : result) (b : List Byte)
      (hk : σ.phases[k]? = some (.renamed i)) (hb : σ.fs (cachePath S i.sum) = some b) :
      Archive.StepOf L S dst σ (.restat k)
        ⟨σ.fs, σ.offset, σ.chunks,
          σ.phases.set k (.archived ⟨cachePath S i.sum, i.sum, 0, (b.length : Int)⟩)⟩
  | assign (k : Nat) (r : result) (hk : σ.phases[k]? = some (.archived r)) :
      Archive.StepOf L S dst σ (.assign k)
        ⟨σ.fs, wrap64 (σ.offset + r.size), σ.chunks ++ [⟨r.path, r.sum, σ.offset, r.size⟩],
          σ.phases.set k (.chunked ⟨r.path, r.sum, σ.offset, r.size⟩)⟩
  | write (k : Nat) (c : result) (fs1 : FS)
      (hk : σ.phases[k]? = some (.chunked c))
      (hw : InsertFile σ.fs dst c.path c.offset = .ok fs1) :
      Archive.StepOf L S dst σ (.write k)
        ⟨fs1, σ.offset, σ.chunks, σ.phases.set k (.written c (FS.size σ.fs c.path))⟩

/-- One for an item that has its chunk, zero before. -/
def Phase.count : Phase → Int
  | .chunked _ => 1
  | .written _ _ => 1
  | _ => 0

/-- An item that has no chunk yet. -/
def Phase.early : Phase → Prop
  | .chunked _ => False
  | .written _ _ => False
  | _ => True

/-- What every state of a run satisfies, whatever the order of the calls: items past
`archives` name cache paths, no temporary file is the destination, the chunks sent so far
are the sequencing goroutine's output on themselves, they are the chunks the items hold,
and the destination ends where the farthest insertion ended. -/
structure Archive.Inv (S : Sys) (dst : String) (σ : State) : Prop where
  atCache : ∀ p ∈ σ.phases, Phase.atCachePath S p
  tmps : ∀ i t, Phase.compressed i t ∈ σ.phases → t ≠ dst
  sent : WriteGroup.chunks σ.chunks = σ.chunks ∧
    σ.offset = (WriteGroup.assigner 0 (σ.chunks.map fun i => (i, SelectCase.send))).2.1
  link : ∀ c, c ∈ σ.chunks ↔ (Phase.chunked c ∈ σ.phases ∨ ∃ n, Phase.written c n ∈ σ.phases)
  sums : sumSizes σ.chunks = (σ.phases.map Phase.recorded).sum
  count : (σ.chunks.length : Int) = (σ.phases.map Phase.count).sum
  wrote : ∀ c n, Phase.written c n ∈ σ.phases →
    0 ≤ c.offset ∧ (n = 0 ∨ c.offset + (n : Int) ≤ maxFileOffset) ∧
      (n ≠ 0 → c.offset.toNat + n ≤ FS.size σ.fs dst)
  top : FS.size σ.fs dst = 0 ∨ ∃ c n, Phase.written c n ∈ σ.phases ∧ n ≠ 0 ∧
    FS.size σ.fs dst = c.offset.toNat + n

/-- What every state of a run keeps of the state `fs0` it started from: one phase per input
path, the files of `fs0` untouched, temporary files and missed cache paths new, and every
hashed item carrying the sum of its file's bytes in `fs0`. -/
structure Archive.Kept (L : Libs) (S : Sys) (fs0 : FS) (filelist : List String)
    (σ : State) : Prop where
  len : σ.phases.length = filelist.length
  keep : ∀ p d, fs0 p = some d → σ.fs p = some d
  fresh : ∀ i t, Phase.compressed i t ∈ σ.phases → fs0 t = none
  absent : ∀ i, (Phase.missed i ∈ σ.phases ∨ ∃ t, Phase.compressed i t ∈ σ.phases) →
    fs0 (cachePath S i.sum) = none
  items : ∀ (k : Nat) (f : String) (d : List Byte), filelist[k]? = some f → fs0 f = some d →
    σ.phases[k]? = some (Phase.queued f) ∨
      ∃ p : Phase, σ.phases[k]? = some p ∧ p.sum? = some (L.md5Sum d)

/-- The item a phase holds once it has been sent on `archives`, with the size recorded for
it. -/
def Phase.result? : Phase → Option result
  | .archived r => some r
  | .chunked c => some c
  | .written c _ => some c
  | _ => none

/-- No item sent on `archives` names the path `p`. -/
def State.unsized (σ : State) (p : String) : Bool :=
  σ.phases.all fun q =>
    match q.result? with
    | some r => r.path != p
    | none => true

/-- Whether the call `a` leaves alone every file whose size an item has recorded: a `Rename`
neither moves away nor replaces a file that an item sent on `archives` names. -/
def Archive.settled (S : Sys) (σ : State) : Action → Bool
  | .rename k =>
    match σ.phases[k]? with
    | some (.compressed i tmpfile) => σ.unsized tmpfile && σ.unsized (cachePath S i.sum)
    | _ => true
  | _ => true

/-- Whether every call of `acts`, made one after another from `σ`, is settled: no blob is
replaced after its size was recorded. -/
def Archive.quiet (L : Libs) (S : Sys) (dst : String) : State → List Action → Bool
  | _, [] => true
  | σ, a :: rest =>
    Archive.settled S σ a &&
      match Archive.step L S dst σ a with
      | none => true
      | some σ1 => Archive.quiet L S dst σ1 rest

/-- Every item sent on `archives` names a file that has the length recorded for the item,
and every insertion copied that many bytes. -/
structure Archive.Sized (σ : State) : Prop where
  blob : ∀ p ∈ σ.phases, ∀ r, p.result? = some r →
    ∃ b, σ.fs r.path = some b ∧ (b.length : Int) = r.size
  copied : ∀ c n, Phase.written c n ∈ σ.phases → (n : Int) = c.size

/-! ## Theorems: the sequencing goroutine -/

theorem wrap64_of_isInt64 {x : Int} (h : IsInt64 x) : wrap64 x = x := by
  unfold IsInt64 at h
  unfold wrap64
  omega

theorem wrap64_add_wrap64 (a b : Int) : wrap64 (wrap64 a + b) = wrap64 (a + b) := by
  unfold wrap64
  omega

theorem wrap64_isInt64 (x : Int) : IsInt64 (wrap64 x) := by
  unfold IsInt64 wrap64
  omega

theorem assigner_send_cons (o : Int) (i : result) (rest : List result) :
    (WriteGroup.assigner o ((i :: rest).map fun i => (i, SelectCase.send))).1 =
      ⟨i.path, i.sum, o, i.size⟩ ::
        (WriteGroup.assigner (wrap64 (o + i.size)) (rest.map fun i => (i, SelectCase.send))).1 := by
  simp [WriteGroup.assigner, WriteGroup.assignStep]

theorem assigner_send_getElem? (input : List result) :
    ∀ (o : Int) (k : Nat), wrap64 o = o →
      (WriteGroup.assigner o (input.map fun i => (i, SelectCase.send))).1[k]? =
        (input[k]?).map fun i =>
          (⟨i.path, i.sum, wrap64 (o + sumSizes (input.take k)), i.size⟩ : result) := by
  induction input with
  | nil => intro o k _; simp [WriteGroup.assigner]
  | cons i rest ih =>
    intro o k ho
    rw [assigner_send_cons]
    cases k with
    | zero => simp [sumSizes, ho]
    | succ k =>
      have h1 : wrap64 (wrap64 (o + i.size)) = wrap64 (o + i.size) :=
        wrap64_of_isInt64 (wrap64_isInt64 _)
      simp only [List.getElem?_cons_succ, ih (wrap64 (o + i.size)) k h1, List.take_succ_cons]
      have h2 : sumSizes (i :: List.take k rest) = i.size + sumSizes (List.take k rest) := by
        simp [sumSizes]
      rw [h2, wrap64_add_wrap64, add_assoc]

theorem chunks_getElem? (input : List result) (k : Nat) :
    (WriteGroup.chunks input)[k]? =
      (input[k]?).map fun i =>
        (⟨i.path, i.sum, wrap64 (sumSizes (input.take k)), i.size⟩ : result) := by
  have h := assigner_send_getElem? input 0 k (by unfold wrap64; omega)
  simpa [WriteGroup.chunks] using h

theorem chunks_length (input : List result) : (WriteGroup.chunks input).length = input.length := by
  unfold WriteGroup.chunks
  generalize (0 : Int) = o
  induction input generalizing o with
  | nil => simp [WriteGroup.assigner]
  | cons i rest ih => rw [assigner_send_cons]; simp [ih]

theorem assigner_send_err (input : List result) (o : Int) :
    (WriteGroup.assigner o (input.map fun i => (i, SelectCase.send))).2.2 = none := by
  induction input generalizing o with
  | nil => simp [WriteGroup.assigner]
  | cons i rest ih => simpa [WriteGroup.assigner, WriteGroup.assignStep] using ih _

theorem assigner_forwarded (evs : List (result × SelectCase)) (o : Int) :
    (WriteGroup.assigner o evs).1 =
      (WriteGroup.assigner o ((WriteGroup.forwarded evs).map fun i => (i, SelectCase.send))).1 := by
  induction evs generalizing o with
  | nil => simp [WriteGroup.forwarded, WriteGroup.assigner]
  | cons e rest ih =>
    obtain ⟨i, c⟩ := e
    cases c with
    | send =>
      have h : WriteGroup.forwarded ((i, SelectCase.send) :: rest) = i :: WriteGroup.forwarded rest := by
        simp [WriteGroup.forwarded]
      rw [h, assigner_send_cons, ← ih]
      simp [WriteGroup.assigner, WriteGroup.assignStep]
    | done => simp [WriteGroup.forwarded, WriteGroup.assigner, WriteGroup.assignStep]

theorem assigner_send_acc (input : List result) :
    ∀ o : Int, wrap64 o = o →
      (WriteGroup.assigner o (input.map fun i => (i, SelectCase.send))).2.1 =
        wrap64 (o + sumSizes input) := by
  induction input with
  | nil => intro o ho; simp [WriteGroup.assigner, sumSizes, ho]
  | cons i rest ih =>
    intro o _
    have h1 : wrap64 (wrap64 (o + i.size)) = wrap64 (o + i.size) :=
      wrap64_of_isInt64 (wrap64_isInt64 _)
    have h2 := ih (wrap64 (o + i.size)) h1
    have h3 : sumSizes (i :: rest) = i.size + sumSizes rest := by simp [sumSizes]
    rw [wrap64_add_wrap64, add_assoc, ← h3] at h2
    simpa [WriteGroup.assigner, WriteGroup.assignStep] using h2

/-- C1 (amended). For the items the sequencing goroutine of `WriteGroup` forwards, the
`k`-th emitted item carries the path, sum and size of the `k`-th input and an offset equal
to the sum of the sizes of the items forwarded before it, reduced to `int64` by
two's-complement wrap-around; whenever that sum fits an `int64` the offset is exactly the
sum. The item leaves with the accumulator as it stood before its own size was added, and
the accumulator is advanced by that size on the send, so that it ends at the wrapped sum
of all sizes. A run that ends in cancellation has emitted the same items as the uncancelled
run on the items it forwarded. -/
theorem assigner_offset_running_sum (input : List result) (k : Nat) (hk : k < input.length) :
    (WriteGroup.assigner 0 (input.map fun i => (i, SelectCase.send))).2.2 = none ∧
    (WriteGroup.chunks input).length = input.length ∧
    (WriteGroup.chunks input)[k]? =
      some ⟨input[k].path, input[k].sum, wrap64 (sumSizes (input.take k)), input[k].size⟩ ∧
    (IsInt64 (sumSizes (input.take k)) →
      ((WriteGroup.chunks input)[k]?).map result.offset = some (sumSizes (input.take k))) ∧
    (∀ o : Int, WriteGroup.assignStep o input[k] SelectCase.send =
      .ok (⟨input[k].path, input[k].sum, o, input[k].size⟩, wrap64 (o + input[k].size))) ∧
    (WriteGroup.assigner 0 (input.map fun i => (i, SelectCase.send))).2.1 =
      wrap64 (sumSizes input) ∧
    (∀ evs : List (result × SelectCase), WriteGroup.forwarded evs = input →
      (WriteGroup.assigner 0 evs).1 = WriteGroup.chunks input) := by
  refine ⟨assigner_send_err input 0, chunks_length input, ?_, ?_, ?_, ?_, ?_⟩
  · rw [chunks_getElem?, List.getElem?_eq_getElem hk]; rfl
  · intro hfit
    rw [chunks_getElem?, List.getElem?_eq_getElem hk]
    simp [wrap64_of_isInt64 hfit]
  · intro o; rfl
  · have := assigner_send_acc input 0 (by unfold wrap64; omega)
    simpa using this
  · intro evs hevs
    rw [assigner_forwarded, hevs]; rfl

/-- C1 (witness): the theorem at three items of sizes 5, 7, 11 and `k = 2`; the third item
leaves with offset 12. -/
theorem assigner_offset_running_sum_witness :
    (WriteGroup.chunks [⟨"a", MD5Sum.zero, 0, 5⟩, ⟨"b", MD5Sum.zero, 0, 7⟩,
        ⟨"c", MD5Sum.zero, 0, 11⟩])[2]? = some ⟨"c", MD5Sum.zero, wrap64 12, 11⟩ ∧
    ((WriteGroup.chunks [⟨"a", MD5Sum.zero, 0, 5⟩, ⟨"b", MD5Sum.zero, 0, 7⟩,
        ⟨"c", MD5Sum.zero, 0, 11⟩])[2]?).map result.offset = some 12 := by
  have h := assigner_offset_running_sum [⟨"a", MD5Sum.zero, 0, 5⟩, ⟨"b", MD5Sum.zero, 0, 7⟩,
    ⟨"c", MD5Sum.zero, 0, 11⟩] 2 (by decide)
  refine ⟨h.2.2.1, ?_⟩
  have h4 := h.2.2.2.1 (by simp [sumSizes, IsInt64])
  simpa [sumSizes] using h4

/-- C1 (counterexample). With sizes `2^63 - 1` and `1` forwarded first, the third item
leaves with offset `-2^63`, while the sizes forwarded before it sum to `2^63`. -/
theorem assigner_offset_overflow :
    ((WriteGroup.chunks [⟨"a", MD5Sum.zero, 0, 2 ^ 63 - 1⟩, ⟨"b", MD5Sum.zero, 0, 1⟩,
        ⟨"c", MD5Sum.zero, 0, 0⟩])[2]?).map result.offset = some (-(2 ^ 63)) ∧
    sumSizes (List.take 2 [⟨"a", MD5Sum.zero, 0, 2 ^ 63 - 1⟩, ⟨"b", MD5Sum.zero, 0, 1⟩,
        ⟨"c", MD5Sum.zero, 0, 0⟩]) = 2 ^ 63 ∧
    ((WriteGroup.chunks [⟨"a", MD5Sum.zero, 0, 2 ^ 63 - 1⟩, ⟨"b", MD5Sum.zero, 0, 1⟩,
        ⟨"c", MD5Sum.zero, 0, 0⟩])[2]?).map result.offset ≠
      some (sumSizes (List.take 2 [⟨"a", MD5Sum.zero, 0, 2 ^ 63 - 1⟩,
        ⟨"b", MD5Sum.zero, 0, 1⟩, ⟨"c", MD5Sum.zero, 0, 0⟩])) := by
  refine ⟨?_, ?_, ?_⟩
  · simp [WriteGroup.chunks, WriteGroup.assigner, WriteGroup.assignStep, wrap64]
  · simp [sumSizes]
  · simp [WriteGroup.chunks, WriteGroup.assigner, WriteGroup.assignStep, wrap64, sumSizes]

/-! ### Layout of the assigned ranges -/

theorem sumSizes_cons (i : result) (rest : List result) :
    sumSizes (i :: rest) = i.size + sumSizes rest := by
  simp [sumSizes]

theorem sumSizes_nonneg (p : List result) (h : ∀ i ∈ p, 0 ≤ i.size) : 0 ≤ sumSizes p := by
  induction p with
  | nil => simp [sumSizes]
  | cons i rest ih =>
    rw [sumSizes_cons]
    have h1 := h i (List.mem_cons_self _ _)
    have h2 := ih fun j hj => h j (List.mem_cons_of_mem _ hj)
    omega

theorem sumSizes_perm {p q : List result} (h : p.Perm q) : sumSizes p = sumSizes q := by
  unfold sumSizes
  exact (h.map result.size).sum_eq

theorem assigner_layout (p : List result) :
    ∀ o : Int, 0 ≤ o → (∀ i ∈ p, 0 ≤ i.size) → o + sumSizes p < 2 ^ 63 →
      (∀ r ∈ (WriteGroup.assigner o (p.map fun i => (i, SelectCase.send))).1,
        o ≤ r.offset ∧ 0 ≤ r.size ∧ r.offset + r.size ≤ o + sumSizes p) ∧
      (WriteGroup.assigner o (p.map fun i => (i, SelectCase.send))).1.Pairwise
        (fun a b => a.offset ≤ b.offset) ∧
      (WriteGroup.assigner o (p.map fun i => (i, SelectCase.send))).1.Pairwise
        (fun a b => Disjoint a.range b.range) ∧
      (∀ x : Int, (∃ r ∈ (WriteGroup.assigner o (p.map fun i => (i, SelectCase.send))).1,
        x ∈ r.range) ↔ o ≤ x ∧ x < o + sumSizes p) := by
  induction p with
  | nil =>
    intro o _ _ _
    simp [WriteGroup.assigner, sumSizes]
  | cons i rest ih =>
    intro o ho hnn hfit
    rw [sumSizes_cons] at hfit
    have hi : 0 ≤ i.size := hnn i (List.mem_cons_self _ _)
    have hrest : ∀ j ∈ rest, 0 ≤ j.size := fun j hj => hnn j (List.mem_cons_of_mem _ hj)
    have hsum : 0 ≤ sumSizes rest := sumSizes_nonneg rest hrest
    have hw : wrap64 (o + i.size) = o + i.size :=
      wrap64_of_isInt64 ⟨by omega, by omega⟩
    rw [assigner_send_cons, hw, sumSizes_cons]
    obtain ⟨h1, h2, h3, h4⟩ := ih (o + i.size) (by omega) hrest (by omega)
    refine ⟨?_, ?_, ?_, ?_⟩
    · intro r hr
      rcases List.mem_cons.1 hr with rfl | hr
      · simp only; omega
      · have := h1 r hr; omega
    · refine List.pairwise_cons.2 ⟨?_, h2⟩
      intro r hr
      have := h1 r hr
      simp only; omega
    · refine List.pairwise_cons.2 ⟨?_, h3⟩
      intro r hr
      have hb := h1 r hr
      rw [Set.disjoint_left]
      intro x hx hx2
      simp only [result.range, Set.mem_Ico] at hx hx2
      omega
    · intro x
      constructor
      · rintro ⟨r, hr, hx⟩
        rcases List.mem_cons.1 hr with rfl | hr
        · simp only [result.range, Set.mem_Ico] at hx; omega
        · have := (h4 x).1 ⟨r, hr, hx⟩; omega
      · rintro ⟨hx1, hx2⟩
        by_cases hlt : x < o + i.size
        · exact ⟨_, List.mem_cons_self _ _, by simp only [result.range, Set.mem_Ico]; omega⟩
        · obtain ⟨r, hr, hx⟩ := (h4 x).2 ⟨by omega, by omega⟩
          exact ⟨r, List.mem_cons_of_mem _ hr, hx⟩

/-- C2. For items with non-negative sizes whose sum fits an `int64`, and for every arrival
order `p` of those items at the sequencing goroutine: the emitted offsets are
non-decreasing, the ranges `[offset, offset + size)` are pairwise disjoint, and their union
is exactly `[0, total)` with `total` the sum of all sizes. -/
theorem assigner_ranges_tile (items p : List result) (hperm : p.Perm items)
    (hnn : ∀ i ∈ items, 0 ≤ i.size) (hfit : sumSizes items < 2 ^ 63) :
    (WriteGroup.chunks p).Pairwise (fun a b => a.offset ≤ b.offset) ∧
    (WriteGroup.chunks p).Pairwise (fun a b => Disjoint a.range b.range) ∧
    (⋃ r ∈ WriteGroup.chunks p, r.range) = Set.Ico 0 (sumSizes items) := by
  have hnn' : ∀ i ∈ p, 0 ≤ i.size := fun i hi => hnn i (hperm.mem_iff.1 hi)
  have hs : sumSizes p = sumSizes items := sumSizes_perm hperm
  obtain ⟨_, h2, h3, h4⟩ := assigner_layout p 0 le_rfl hnn' (by rw [hs]; omega)
  refine ⟨h2, h3, ?_⟩
  ext x
  simp only [Set.mem_iUnion, exists_prop, Set.mem_Ico]
  rw [← hs]
  have := h4 x
  simpa [WriteGroup.chunks] using this

/-- C2 (witness): three items of sizes 3, 0, 4 arriving in the order 4, 3, 0. -/
theorem assigner_ranges_tile_witness :
    (WriteGroup.chunks [⟨"c", MD5Sum.zero, 0, 4⟩, ⟨"a", MD5Sum.zero, 0, 3⟩,
        ⟨"b", MD5Sum.zero, 0, 0⟩]).Pairwise (fun a b => a.offset ≤ b.offset) ∧
    (WriteGroup.chunks [⟨"c", MD5Sum.zero, 0, 4⟩, ⟨"a", MD5Sum.zero, 0, 3⟩,
        ⟨"b", MD5Sum.zero, 0, 0⟩]).Pairwise (fun a b => Disjoint a.range b.range) ∧
    (⋃ r ∈ WriteGroup.chunks [⟨"c", MD5Sum.zero, 0, 4⟩, ⟨"a", MD5Sum.zero, 0, 3⟩,
        ⟨"b", MD5Sum.zero, 0, 0⟩], r.range) =
      Set.Ico 0 (sumSizes [⟨"a", MD5Sum.zero, 0, 3⟩, ⟨"b", MD5Sum.zero, 0, 0⟩,
        ⟨"c", MD5Sum.zero, 0, 4⟩]) :=
  assigner_ranges_tile
    [⟨"a", MD5Sum.zero, 0, 3⟩, ⟨"b", MD5Sum.zero, 0, 0⟩, ⟨"c", MD5Sum.zero, 0, 4⟩]
    [⟨"c", MD5Sum.zero, 0, 4⟩, ⟨"a", MD5Sum.zero, 0, 3⟩, ⟨"b", MD5Sum.zero, 0, 0⟩]
    (by decide) (by decide) (by simp [sumSizes])

/-! ## Theorems: positional writes -/

theorem writeAt_nil (d : List Byte) (o : Nat) : writeAt d o [] = d := by simp [writeAt]

theorem writeAt_length (d s : List Byte) (o : Nat) (hs : s ≠ []) :
    (writeAt d o s).length = max d.length (o + s.length) := by
  simp only [writeAt, hs, if_false, List.length_append, List.length_take, List.length_drop,
    List.length_replicate]
  omega

theorem writeAt_getElem? (d s : List Byte) (o x : Nat) (hs : s ≠ []) :
    (writeAt d o s)[x]? =
      if x < o then some (d.getD x 0)
      else if x < o + s.length then some (s.getD (x - o) 0) else d[x]? := by
  have hA : ((d ++ List.replicate (o - d.length) 0).take o).length = o := by
    simp only [List.length_take, List.length_append, List.length_replicate]; omega
  simp only [writeAt, hs, if_false, List.append_assoc]
  by_cases h1 : x < o
  · rw [List.getElem?_append_left (by omega)]
    simp only [h1, if_true]
    rw [List.getElem?_take_of_lt h1]
    by_cases h2 : x < d.length
    · rw [List.getElem?_append_left h2]
      simp [List.getD_eq_getElem?_getD, List.getElem?_eq_getElem h2]
    · rw [List.getElem?_append_right (by omega)]
      simp [List.getD_eq_getElem?_getD, List.getElem?_replicate]
      have : d[x]? = none := List.getElem?_eq_none (by omega)
      simp [this]; omega
  · rw [List.getElem?_append_right (by omega)]
    simp only [h1, if_false, hA]
    by_cases h2 : x < o + s.length
    · rw [List.getElem?_append_left (by omega)]
      have h3 : x - o < s.length := by omega
      simp [h2, List.getD_eq_getElem?_getD, List.getElem?_eq_getElem h3]
    · rw [List.getElem?_append_right (by omega)]
      simp only [h2, if_false, List.getElem?_drop]
      congr 1; omega

theorem writeAt_getD (d s : List Byte) (o x : Nat) (hs : s ≠ []) :
    (writeAt d o s).getD x 0 =
      if x < o then d.getD x 0 else if x < o + s.length then s.getD (x - o) 0 else d.getD x 0 := by
  rw [List.getD_eq_getElem?_getD, writeAt_getElem? d s o x hs]
  split_ifs <;> simp [List.getD_eq_getElem?_getD]

theorem writeAt_comm (d s1 s2 : List Byte) (o1 o2 : Nat)
    (h : s1 = [] ∨ s2 = [] ∨ o1 + s1.length ≤ o2 ∨ o2 + s2.length ≤ o1) :
    writeAt (writeAt d o1 s1) o2 s2 = writeAt (writeAt d o2 s2) o1 s1 := by
  by_cases h1 : s1 = []
  · subst h1; simp [writeAt_nil]
  by_cases h2 : s2 = []
  · subst h2; simp [writeAt_nil]
  have hd : o1 + s1.length ≤ o2 ∨ o2 + s2.length ≤ o1 := by tauto
  have l1 : 0 < s1.length := List.length_pos.2 h1
  have l2 : 0 < s2.length := List.length_pos.2 h2
  apply List.ext_getElem?
  intro x
  simp only [writeAt_getElem? _ _ _ _ h1, writeAt_getElem? _ _ _ _ h2, writeAt_getD _ _ _ _ h1,
    writeAt_getD _ _ _ _ h2]
  split_ifs <;> first | rfl | omega

theorem writeAt_append (d s : List Byte) : writeAt d d.length s = d ++ s := by
  by_cases hs : s = []
  · subst hs; simp [writeAt_nil]
  · simp [writeAt, hs]

theorem FS.put_same (fs : FS) (p : String) (d : List Byte) : (fs.put p d) p = some d := by
  simp [FS.put]

theorem FS.put_other (fs : FS) {p q : String} (d : List Byte) (h : q ≠ p) :
    (fs.put p d) q = fs q := by
  simp [FS.put, h]

theorem FS.put_put (fs : FS) (p : String) (a b : List Byte) :
    (fs.put p a).put p b = fs.put p b := by
  funext q
  by_cases h : q = p <;> simp [FS.put, h]

theorem InsertFile_ok_iff (fs fs1 : FS) (dst src : String) (o : Int) (hne : src ≠ dst) :
    InsertFile fs dst src o = .ok fs1 ↔
      ∃ s, fs src = some s ∧ 0 ≤ o ∧ (s = [] ∨ o + s.length ≤ maxFileOffset) ∧
        fs1 = fs.put dst (writeAt ((fs dst).getD []) o.toNat s) := by
  unfold InsertFile
  simp only [FS.put_other fs _ hne, FS.put_put]
  cases hs : fs src with
  | none => simp
  | some s =>
    simp only [Option.some.injEq, exists_eq_left']
    by_cases h1 : o < 0
    · simp only [h1, if_true]
      constructor
      · intro h; cases h
      · rintro ⟨h, _⟩; omega
    · simp only [h1, if_false]
      by_cases h2 : s ≠ [] ∧ maxFileOffset < o + s.length
      · rw [if_pos h2]
        constructor
        · intro h; cases h
        · rintro ⟨_, h, _⟩
          rcases h with h | h
          · exact absurd h h2.1
          · omega
      · rw [if_neg h2]
        simp only [Except.ok.injEq]
        constructor
        · intro h
          refine ⟨by omega, ?_, h.symm⟩
          by_cases h3 : s = []
          · exact Or.inl h3
          · right
            have : ¬ maxFileOffset < o + s.length := fun h4 => h2 ⟨h3, h4⟩
            omega
        · rintro ⟨_, _, h⟩; exact h.symm

theorem writeAll_cons (dst : String) (fs fs1 : FS) (c : result) (rest : List result) :
    WriteGroup.writeAll dst fs (c :: rest) = .ok fs1 ↔
      ∃ fs0, InsertFile fs dst c.path c.offset = .ok fs0 ∧
        WriteGroup.writeAll dst fs0 rest = .ok fs1 := by
  simp only [WriteGroup.writeAll, WriteGroup.worker, select]
  cases h : InsertFile fs dst c.path c.offset with
  | error e => simp
  | ok fs0 => simp

theorem applyWrites_cons (d : List Byte) (w : Nat × List Byte) (ws : List (Nat × List Byte)) :
    applyWrites d (w :: ws) = applyWrites (writeAt d w.1 w.2) ws := rfl

theorem writeAll_ok_iff (dst : String) (cs : List result) :
    ∀ fs fs1 : FS, (∀ c ∈ cs, c.path ≠ dst) →
      (WriteGroup.writeAll dst fs cs = .ok fs1 ↔
        (∀ c ∈ cs, ∃ s, fs c.path = some s ∧ 0 ≤ c.offset ∧
          (s = [] ∨ c.offset + s.length ≤ maxFileOffset)) ∧
        fs1 = if cs = [] then fs
          else fs.put dst (applyWrites ((fs dst).getD []) (cs.map (toWrite fs)))) := by
  induction cs with
  | nil =>
    intro fs fs1 _
    simp only [WriteGroup.writeAll, Except.ok.injEq, List.not_mem_nil, false_implies,
      implies_true, true_and, if_true]
    exact eq_comm
  | cons c rest ih =>
    intro fs fs1 hne
    have hc : c.path ≠ dst := hne c (List.mem_cons_self _ _)
    have hrest : ∀ x ∈ rest, x.path ≠ dst := fun x hx => hne x (List.mem_cons_of_mem _ hx)
    rw [writeAll_cons]
    simp only [InsertFile_ok_iff _ _ _ _ _ hc]
    constructor
    · rintro ⟨fs0, ⟨s, hs, ho, hfit, rfl⟩, hrun⟩
      obtain ⟨h1, h2⟩ := (ih _ _ hrest).1 hrun
      have hmap : rest.map (toWrite (fs.put dst (writeAt ((fs dst).getD []) c.offset.toNat s))) =
          rest.map (toWrite fs) := by
        apply List.map_congr_left
        intro x hx
        simp [toWrite, FS.put_other fs _ (hrest x hx)]
      refine ⟨?_, ?_⟩
      · intro x hx
        rcases List.mem_cons.1 hx with rfl | hx
        · exact ⟨s, hs, ho, hfit⟩
        · obtain ⟨t, ht, h⟩ := h1 x hx
          rw [FS.put_other fs _ (hrest x hx)] at ht
          exact ⟨t, ht, h⟩
      · rw [h2, hmap, FS.put_same, FS.put_put]
        simp only [Option.getD_some, List.cons_ne_nil, if_false, List.map_cons,
          applyWrites_cons, toWrite, hs]
        by_cases hr : rest = []
        · subst hr; simp [applyWrites]
        · simp [hr]
    · rintro ⟨h1, h2⟩
      obtain ⟨s, hs, ho, hfit⟩ := h1 c (List.mem_cons_self _ _)
      refine ⟨_, ⟨s, hs, ho, hfit, rfl⟩, ?_⟩
      have hmap : rest.map (toWrite (fs.put dst (writeAt ((fs dst).getD []) c.offset.toNat s))) =
          rest.map (toWrite fs) := by
        apply List.map_congr_left
        intro x hx
        simp [toWrite, FS.put_other fs _ (hrest x hx)]
      rw [ih _ _ hrest]
      refine ⟨?_, ?_⟩
      · intro x hx
        obtain ⟨t, ht, h⟩ := h1 x (List.mem_cons_of_mem _ hx)
        exact ⟨t, by rw [FS.put_other fs _ (hrest x hx)]; exact ht, h⟩
      · rw [h2, hmap, FS.put_same, FS.put_put]
        simp only [Option.getD_some, List.cons_ne_nil, if_false, List.map_cons,
          applyWrites_cons, toWrite, hs]
        by_cases hr : rest = []
        · subst hr; simp [applyWrites]
        · simp [hr]

theorem Compatible.symm {a b : Nat × List Byte} (h : Compatible a b) : Compatible b a := by
  unfold Compatible at *
  tauto

theorem applyWrites_perm {ws1 ws2 : List (Nat × List Byte)} (hp : ws1.Perm ws2)
    (hc : ws1.Pairwise Compatible) (d : List Byte) :
    applyWrites d ws1 = applyWrites d ws2 := by
  unfold applyWrites
  apply hp.foldl_eq'
  intro x hx y hy z
  by_cases hxy : x = y
  · subst hxy; rfl
  · have h : Compatible x y := hc.forall (fun _ _ h => h.symm) hx hy hxy
    exact writeAt_comm z x.2 y.2 x.1 y.1 h

theorem applyWrites_tiled (ws : List (Nat × List Byte)) :
    ∀ d : List Byte, Tiled d.length ws → applyWrites d ws = d ++ (ws.map Prod.snd).flatten := by
  induction ws with
  | nil => intro d _; simp [applyWrites]
  | cons w rest ih =>
    intro d h
    obtain ⟨h1, h2⟩ := h
    rw [applyWrites_cons, h1, writeAt_append, ih]
    · simp
    · simpa using h2

theorem pairwise_tiled (ws : List (Nat × List Byte)) :
    ∀ start : Nat, Tiled start ws → (∀ w ∈ ws, start ≤ w.1) ∧ ws.Pairwise Compatible := by
  induction ws with
  | nil => intro _ _; simp
  | cons w rest ih =>
    intro start h
    obtain ⟨h1, h2⟩ := h
    obtain ⟨h3, h4⟩ := ih _ h2
    refine ⟨?_, List.pairwise_cons.2 ⟨?_, h4⟩⟩
    · intro x hx
      rcases List.mem_cons.1 hx with rfl | hx
      · omega
      · have := h3 x hx; omega
    · intro x hx
      have := h3 x hx
      unfold Compatible
      omega

theorem assigner_mem (arrival : List result) :
    ∀ (o : Int), ∀ c ∈ (WriteGroup.assigner o (arrival.map fun i => (i, SelectCase.send))).1,
      ∃ i ∈ arrival, c.path = i.path ∧ c.size = i.size ∧ c.sum = i.sum := by
  induction arrival with
  | nil => intro o c hc; simp [WriteGroup.assigner] at hc
  | cons i rest ih =>
    intro o c hc
    rw [assigner_send_cons] at hc
    rcases List.mem_cons.1 hc with rfl | hc
    · exact ⟨i, List.mem_cons_self _ _, rfl, rfl, rfl⟩
    · obtain ⟨j, hj, h⟩ := ih _ c hc
      exact ⟨j, List.mem_cons_of_mem _ hj, h⟩

theorem assigner_tiled (fs : FS) (arrival : List result) :
    ∀ o : Int, 0 ≤ o → o ≤ maxFileOffset →
      (∀ i ∈ arrival, ∃ b, fs i.path = some b ∧ i.size = b.length) →
      (∀ c ∈ (WriteGroup.assigner o (arrival.map fun i => (i, SelectCase.send))).1,
        ∃ s, fs c.path = some s ∧ 0 ≤ c.offset ∧
          (s = [] ∨ c.offset + s.length ≤ maxFileOffset)) →
      Tiled o.toNat
        ((WriteGroup.assigner o (arrival.map fun i => (i, SelectCase.send))).1.map (toWrite fs)) ∧
      ((WriteGroup.assigner o (arrival.map fun i => (i, SelectCase.send))).1.map
        (toWrite fs)).map Prod.snd = arrival.map fun i => (fs i.path).getD [] := by
  induction arrival with
  | nil => intro o _ _ _ _; simp [WriteGroup.assigner, Tiled]
  | cons i rest ih =>
    intro o ho1 ho2 hblob hok
    rw [assigner_send_cons] at hok ⊢
    obtain ⟨b, hb, hsz⟩ := hblob i (List.mem_cons_self _ _)
    obtain ⟨s, hs, _, hfit⟩ := hok _ (List.mem_cons_self _ _)
    simp only at hs hfit
    rw [hb] at hs
    cases hs
    have hle : o + i.size ≤ maxFileOffset := by
      rcases hfit with h | h
      · subst h; simp at hsz; omega
      · omega
    have hw : wrap64 (o + i.size) = o + i.size := by
      apply wrap64_of_isInt64
      unfold maxFileOffset at hle
      constructor <;> omega
    rw [hw] at hok ⊢
    obtain ⟨h1, h2⟩ := ih (o + i.size) (by omega) hle
      (fun j hj => hblob j (List.mem_cons_of_mem _ hj))
      (fun c hc => hok c (List.mem_cons_of_mem _ hc))
    refine ⟨⟨?_, ?_⟩, ?_⟩
    · simp [toWrite]
    · have : (o + i.size).toNat = o.toNat + (toWrite fs ⟨i.path, i.sum, o, i.size⟩).2.length := by
        simp only [toWrite, hb, Option.getD_some]
        omega
      rw [← this]; exact h1
    · simp only [List.map_cons, h2]
      simp [toWrite]

theorem assigner_fits (fs : FS) (arrival : List result)
    (hblob : ∀ i ∈ arrival, ∃ b, fs i.path = some b ∧ i.size = b.length)
    (hfit : sumSizes arrival ≤ maxFileOffset) :
    ∀ c ∈ WriteGroup.chunks arrival, ∃ s, fs c.path = some s ∧ 0 ≤ c.offset ∧
      (s = [] ∨ c.offset + s.length ≤ maxFileOffset) := by
  intro c hc
  have hnn : ∀ i ∈ arrival, 0 ≤ i.size := by
    intro i hi
    obtain ⟨b, _, h⟩ := hblob i hi
    omega
  unfold maxFileOffset at hfit
  obtain ⟨h1, _⟩ := assigner_layout arrival 0 le_rfl hnn (by omega)
  obtain ⟨h2, _, h3⟩ := h1 c hc
  obtain ⟨i, hi, hp, hs, _⟩ := assigner_mem arrival 0 c hc
  obtain ⟨b, hb, hsz⟩ := hblob i hi
  refine ⟨b, by rw [hp]; exact hb, h2, Or.inr ?_⟩
  unfold maxFileOffset
  omega

theorem writeAll_chunks_perm (fs : FS) (dst : String) (arrival written : List result)
    (hdst : fs dst = none ∨ fs dst = some [])
    (hblob : ∀ i ∈ arrival, i.path ≠ dst ∧ ∃ b, fs i.path = some b ∧ i.size = b.length)
    (hperm : written.Perm (WriteGroup.chunks arrival)) :
    (∀ fs1 : FS, WriteGroup.writeAll dst fs written = .ok fs1 →
      (fs1 dst).getD [] = (arrival.map fun i => (fs i.path).getD []).flatten ∧
      (arrival ≠ [] → ∃ d, fs1 dst = some d) ∧
      ∀ p, p ≠ dst → fs1 p = fs p) ∧
    (sumSizes arrival ≤ maxFileOffset →
      ∃ fs1 : FS, WriteGroup.writeAll dst fs written = .ok fs1) := by
  have hblob2 : ∀ i ∈ arrival, ∃ b, fs i.path = some b ∧ i.size = b.length :=
    fun i hi => (hblob i hi).2
  have hne : ∀ c ∈ written, c.path ≠ dst := by
    intro c hc
    obtain ⟨i, hi, hp, _⟩ := assigner_mem arrival 0 c (hperm.mem_iff.1 hc)
    rw [hp]; exact (hblob i hi).1
  constructor
  · intro fs1 hrun
    obtain ⟨hok, hfs1⟩ := (writeAll_ok_iff dst written fs fs1 hne).1 hrun
    have hok2 : ∀ c ∈ WriteGroup.chunks arrival, ∃ s, fs c.path = some s ∧ 0 ≤ c.offset ∧
        (s = [] ∨ c.offset + s.length ≤ maxFileOffset) :=
      fun c hc => hok c (hperm.mem_iff.2 hc)
    obtain ⟨ht, hsnd⟩ := assigner_tiled fs arrival 0 le_rfl (by unfold maxFileOffset; omega)
      hblob2 hok2
    have hd0 : (fs dst).getD [] = [] := by rcases hdst with h | h <;> simp [h]
    have hcontent : applyWrites [] (written.map (toWrite fs)) =
        (arrival.map fun i => (fs i.path).getD []).flatten := by
      have hp : ((WriteGroup.chunks arrival).map (toWrite fs)).Perm (written.map (toWrite fs)) :=
        (hperm.map _).symm
      rw [← applyWrites_perm hp (pairwise_tiled _ _ ht).2 []]
      have := applyWrites_tiled _ [] (by simpa using ht)
      rw [hsnd] at this
      simpa [WriteGroup.chunks] using this
    by_cases hw : written = []
    · subst hw
      have hlen : arrival.length = 0 := by
        rw [← chunks_length arrival, ← hperm.length_eq]; rfl
      have ha : arrival = [] := List.length_eq_zero.1 hlen
      subst ha
      simp only [if_true] at hfs1
      subst hfs1
      exact ⟨by simp [hd0], fun h => absurd rfl h, fun _ _ => rfl⟩
    · simp only [hw, if_false, hd0] at hfs1
      subst hfs1
      refine ⟨by rw [FS.put_same, Option.getD_some, hcontent], fun _ => ⟨_, FS.put_same _ _ _⟩,
        fun p hp => FS.put_other fs _ hp⟩
  · intro hfit
    have hok := assigner_fits fs arrival hblob2 hfit
    exact ⟨_, (writeAll_ok_iff dst written fs _ hne).2
      ⟨fun c hc => hok c (hperm.mem_iff.1 hc), rfl⟩⟩

/-- C4. Blobs whose length on disk is the size recorded for them, offsets assigned by the
sequencing goroutine in arrival order, destination absent or empty at the start: in
whatever order the writers apply `InsertFile(dst, blob, offset)`, a run in which every
insertion succeeds leaves in the destination exactly the blobs concatenated in assignment
order, and leaves every other file as it was; and every insertion does succeed when the
sizes sum to at most the largest file offset. -/
theorem writers_any_order_concat (fs : FS) (dst : String) (arrival written : List result)
    (hdst : fs dst = none ∨ fs dst = some [])
    (hblob : ∀ i ∈ arrival, i.path ≠ dst ∧ ∃ b, fs i.path = some b ∧ i.size = b.length)
    (hperm : written.Perm (WriteGroup.chunks arrival)) :
    (∀ fs1 : FS, WriteGroup.writeAll dst fs written = .ok fs1 →
      (fs1 dst).getD [] = (arrival.map fun i => (fs i.path).getD []).flatten ∧
      (arrival ≠ [] → ∃ d, fs1 dst = some d) ∧
      ∀ p, p ≠ dst → fs1 p = fs p) ∧
    (sumSizes arrival ≤ maxFileOffset →
      ∃ fs1 : FS, WriteGroup.writeAll dst fs written = .ok fs1) :=
  writeAll_chunks_perm fs dst arrival written hdst hblob hperm

/-- C4 (witness): two blobs of 3 and 2 bytes, the second chunk written first. -/
theorem writers_any_order_concat_witness :
    (∀ fs1 : FS, WriteGroup.writeAll "pack" sampleBlobs
        [⟨"/tmp/b1", MD5Sum.zero, 3, 2⟩, ⟨"/tmp/b0", MD5Sum.zero, 0, 3⟩] = .ok fs1 →
      (fs1 "pack").getD [] = [1, 2, 3, 4, 5]) ∧
    ∃ fs1 : FS, WriteGroup.writeAll "pack" sampleBlobs
        [⟨"/tmp/b1", MD5Sum.zero, 3, 2⟩, ⟨"/tmp/b0", MD5Sum.zero, 0, 3⟩] = .ok fs1 := by
  have h := writers_any_order_concat sampleBlobs "pack"
    [⟨"/tmp/b0", MD5Sum.zero, 0, 3⟩, ⟨"/tmp/b1", MD5Sum.zero, 0, 2⟩]
    [⟨"/tmp/b1", MD5Sum.zero, 3, 2⟩, ⟨"/tmp/b0", MD5Sum.zero, 0, 3⟩]
    (Or.inl (by simp [sampleBlobs, FS.put, FS.empty]))
    (by
      intro i hi
      simp only [List.mem_cons, List.mem_singleton, List.not_mem_nil, or_false] at hi
      rcases hi with rfl | rfl
      · exact ⟨by decide, [1, 2, 3], by simp [sampleBlobs, FS.put, FS.empty], rfl⟩
      · exact ⟨by decide, [4, 5], by simp [sampleBlobs, FS.put, FS.empty], rfl⟩)
    (by
      simp only [WriteGroup.chunks, WriteGroup.assigner, WriteGroup.assignStep, List.map]
      have : wrap64 (0 + 3) = 3 := by unfold wrap64; omega
      rw [this]
      exact List.Perm.swap _ _ _)
  refine ⟨fun fs1 hrun => ?_, h.2 (by simp [sumSizes, maxFileOffset])⟩
  have := (h.1 fs1 hrun).1
  simpa [sampleBlobs, FS.put] using this

/-! ### The frame of one insertion -/

/-- C10 (amended). `InsertFile(dst, src, o)` with `o ≥ 0`, `src ≠ dst`, source bytes `s`
and destination bytes `d` (empty when absent) succeeds whenever `s` is empty or
`o + len(s)` is at most the largest file offset, and then: the destination holds `s` at
`[o, o + len(s))`; every byte of `d` outside that range is unchanged; the destination is
never shorter than `d`; every other file is unchanged; all of `s` is written whatever the
`size` field of the item says. When `s` is not empty, a gap between `len(d)` and `o` reads
as zeros and the length is `max(len(d), o + len(s))`; when `s` is empty nothing is written
and the length stays `len(d)`. -/
theorem InsertFile_frame (fs : FS) (dst src : String) (o : Int) (d s : List Byte)
    (hne : src ≠ dst) (hsrc : fs src = some s) (hd : (fs dst).getD [] = d) (ho : 0 ≤ o)
    (hfit : s = [] ∨ o + s.length ≤ maxFileOffset) :
    ∃ (fs1 : FS) (d1 : List Byte),
      InsertFile fs dst src o = .ok fs1 ∧ fs1 dst = some d1 ∧
      (∀ x, x < s.length → d1[o.toNat + x]? = s[x]?) ∧
      (∀ x, x < d.length → (x < o.toNat ∨ o.toNat + s.length ≤ x) → d1[x]? = d[x]?) ∧
      (s ≠ [] → ∀ x, d.length ≤ x → x < o.toNat → d1[x]? = some 0) ∧
      d1.length = (if s = [] then d.length else max d.length (o.toNat + s.length)) ∧
      d.length ≤ d1.length ∧
      (∀ p, p ≠ dst → fs1 p = fs p) ∧
      (∀ (h : MD5Sum) (size1 size2 : Int) (c : SelectCase),
        (WriteGroup.worker dst fs ⟨src, h, o, size1⟩ c).map Prod.snd =
          (WriteGroup.worker dst fs ⟨src, h, o, size2⟩ c).map Prod.snd) := by
  refine ⟨_, writeAt d o.toNat s, (InsertFile_ok_iff fs _ dst src o hne).2
    ⟨s, hsrc, ho, hfit, rfl⟩, by rw [hd, FS.put_same], ?_, ?_, ?_, ?_, ?_, ?_, ?_⟩
  · intro x hx
    have hs : s ≠ [] := by intro h; subst h; simp at hx
    rw [writeAt_getElem? d s _ _ hs, if_neg (by omega), if_pos (by omega)]
    simp [List.getD_eq_getElem?_getD, List.getElem?_eq_getElem hx]
  · intro x hx hout
    by_cases hs : s = []
    · subst hs; rw [writeAt_nil]
    · rw [writeAt_getElem? d s _ _ hs]
      rcases hout with h | h
      · rw [if_pos h]
        simp [List.getD_eq_getElem?_getD, List.getElem?_eq_getElem hx]
      · rw [if_neg (by omega), if_neg (by omega)]
  · intro hs x hx1 hx2
    rw [writeAt_getElem? d s _ _ hs, if_pos hx2]
    simp [List.getD_eq_getElem?_getD, List.getElem?_eq_none hx1]
  · by_cases hs : s = []
    · subst hs; simp [writeAt_nil]
    · rw [if_neg hs, writeAt_length d s _ hs]
  · by_cases hs : s = []
    · subst hs; simp [writeAt_nil]
    · rw [writeAt_length d s _ hs]; omega
  · intro p hp
    exact FS.put_other fs _ hp
  · intro h size1 size2 c
    simp only [WriteGroup.worker]
    cases InsertFile fs dst src o with
    | error e => rfl
    | ok fs0 => cases c <;> rfl

/-- C10 (witness): three bytes inserted at offset 4 into a destination of two bytes. -/
theorem InsertFile_frame_witness :
    ∃ (fs1 : FS) (d1 : List Byte),
      InsertFile (sampleBlobs.put "pack" [9, 9]) "pack" "/tmp/b0" 4 = .ok fs1 ∧
      fs1 "pack" = some d1 ∧ d1.length = 7 := by
  obtain ⟨fs1, d1, h1, h2, _, _, _, h6, _⟩ :=
    InsertFile_frame (sampleBlobs.put "pack" [9, 9]) "pack" "/tmp/b0" 4 [9, 9] [1, 2, 3]
      (by decide) (by simp [sampleBlobs, FS.put, FS.empty]) (by simp [FS.put]) (by decide)
      (Or.inr (by simp [maxFileOffset]))
  exact ⟨fs1, d1, h1, h2, by simpa using h6⟩

/-- C10 (counterexample). Inserting an empty source at offset 5 into a destination of two
bytes succeeds and leaves the two bytes: the length is 2, not `max(2, 5 + 0)`, and
position 3 of the gap holds no zero byte. -/
theorem InsertFile_empty_source :
    ∃ fs1 : FS,
      InsertFile ((FS.empty.put "blob" []).put "pack" [7, 7]) "pack" "blob" 5 =
        .ok fs1 ∧
      fs1 "pack" = some [7, 7] ∧
      ((fs1 "pack").getD []).length ≠ max 2 (5 + 0) ∧
      ((fs1 "pack").getD [])[3]? ≠ some 0 := by
  refine ⟨_, (InsertFile_ok_iff _ _ "pack" "blob" 5 (by decide)).2
    ⟨[], by simp [FS.put, FS.empty], by decide, Or.inl rfl, rfl⟩, ?_, ?_, ?_⟩ <;>
  simp [FS.put, writeAt]

/-! ## Theorems: the content cache -/

theorem hexDigit_injective (a b : Fin 16) (h : hexDigit a.val = hexDigit b.val) : a = b := by
  revert a b
  decide

theorem hexByte_injective (a b : Byte) (h : hexByte a = hexByte b) : a = b := by
  simp only [hexByte, List.cons.injEq, and_true] at h
  have hq : a.val / 16 = b.val / 16 := by
    have := hexDigit_injective ⟨a.val / 16, by omega⟩ ⟨b.val / 16, by omega⟩ h.1
    exact Fin.mk.inj_iff.1 this
  have hr : a.val % 16 = b.val % 16 := by
    have := hexDigit_injective ⟨a.val % 16, by omega⟩ ⟨b.val % 16, by omega⟩ h.2
    exact Fin.mk.inj_iff.1 this
  apply Fin.ext
  omega

theorem hex_chars_injective (l1 : List Byte) :
    ∀ l2 : List Byte, l1.flatMap hexByte = l2.flatMap hexByte → l1 = l2 := by
  induction l1 with
  | nil =>
    intro l2 h
    cases l2 with
    | nil => rfl
    | cons b rest => simp [hexByte] at h
  | cons a rest ih =>
    intro l2 h
    cases l2 with
    | nil => simp [hexByte] at h
    | cons b rest2 =>
      simp only [List.flatMap_cons, hexByte, List.cons_append, List.nil_append,
        List.cons.injEq] at h
      have hab : a = b := hexByte_injective a b (by simp [hexByte, h.1, h.2.1])
      rw [hab, ih rest2 h.2.2]

theorem cachePath_injective (S : Sys) (h1 h2 : MD5Sum) (h : cachePath S h1 = cachePath S h2) :
    h1 = h2 := by
  unfold cachePath hex at h
  have hd := congrArg String.data h
  simp only [String.data_append, List.append_cancel_left_eq] at hd
  exact Subtype.ext (hex_chars_injective _ _ hd)

theorem osRename_ok (fs fs2 : FS) (a b : String) (h : osRename fs a b = .ok fs2) :
    ∃ d, fs a = some d ∧ fs2 = (fs.remove a).put b d := by
  unfold osRename at h
  cases ha : fs a with
  | none => simp [ha] at h
  | some d =>
    simp only [ha, Except.ok.injEq] at h
    exact ⟨d, rfl, h.symm⟩

theorem CompressFile_ok_iff (L : Libs) (S : Sys) (tmp : String) (fs fs1 : FS)
    (src tmpfile : String) :
    CompressFile L S tmp fs src = .ok (tmpfile, fs1) ↔
      ∃ data, fs src = some data ∧ fs tmp = none ∧ tmpfile = tmp ∧
        fs1 = fs.put tmp (L.gzip (L.tarEntry
          ⟨src, (S.Mode src : Int), (data.length : Int), S.ModTime src⟩ data)) := by
  unfold CompressFile
  cases hs : fs src with
  | none => simp
  | some data =>
    cases ht : fs tmp with
    | some t => simp
    | none =>
      simp only [Except.ok.injEq, Prod.mk.injEq, Option.some.injEq, exists_eq_left', true_and]
      constructor
      · rintro ⟨h1, h2⟩; exact ⟨h1.symm, h2.symm⟩
      · rintro ⟨h1, h2⟩; exact ⟨h1.symm, h2.symm⟩

theorem CompressGroup_worker_hit (L : Libs) (S : Sys) (tmp : String) (fs : FS) (i : result)
    (b : List Byte) (h : fs (cachePath S i.sum) = some b) :
    CompressGroup.worker L S tmp fs i SelectCase.send =
      .ok (⟨cachePath S i.sum, i.sum, 0, (b.length : Int)⟩, fs) := by
  simp [CompressGroup.worker, osStat, h, select]

theorem CompressGroup_worker_miss (L : Libs) (S : Sys) (tmp : String) (fs fs1 fs2 : FS)
    (i : result) (tmpfile : String) (h : fs (cachePath S i.sum) = none)
    (hc : CompressFile L S tmp fs i.path = .ok (tmpfile, fs1))
    (hr : osRename fs1 tmpfile (cachePath S i.sum) = .ok fs2) :
    ∃ b, fs2 (cachePath S i.sum) = some b ∧
      CompressGroup.worker L S tmp fs i SelectCase.send =
        .ok (⟨cachePath S i.sum, i.sum, 0, (b.length : Int)⟩, fs2) := by
  obtain ⟨d, _, hfs2⟩ := osRename_ok _ _ _ _ hr
  refine ⟨d, by rw [hfs2, FS.put_same], ?_⟩
  have h2 : fs2 (cachePath S i.sum) = some d := by rw [hfs2, FS.put_same]
  simp [CompressGroup.worker, osStat, h, hc, hr, h2, select]

theorem hexDigit_eq_digitChar (a : Fin 16) : hexDigit a.val = Nat.digitChar a.val := by
  revert a
  decide

theorem hexByte_eq (b : Byte) :
    hexByte b = [Nat.digitChar (b.val / 16), Nat.digitChar (b.val % 16)] := by
  have h1 := hexDigit_eq_digitChar ⟨b.val / 16, by omega⟩
  have h2 := hexDigit_eq_digitChar ⟨b.val % 16, by omega⟩
  simp only at h1 h2
  simp [hexByte, h1, h2]

theorem hex_eq (l : List Byte) :
    hex l = String.mk (l.flatMap fun b =>
      [Nat.digitChar (b.val / 16), Nat.digitChar (b.val % 16)]) := by
  unfold hex
  congr 1
  induction l with
  | nil => rfl
  | cons b rest ih => simp [List.flatMap_cons, hexByte_eq, ih]

theorem hex_length (l : List Byte) : (hex l).length = 2 * l.length := by
  unfold hex
  simp only [String.length]
  induction l with
  | nil => rfl
  | cons b rest ih => simp [List.flatMap_cons, hexByte, ih]; omega

/-- C8. The cache step of a `CompressGroup` worker on an explicit file system state. The
cache path is `TempDir`, then `/spack`, then the sum in lowercase hexadecimal, two digits
per byte with the high digit first, 32 digits in all (bytes `00 0f 10 7f 80 ab cd ef ff`
print as `000f107f80abcdefff`), and two sums have the same path exactly when they are
equal. When the cache path already holds a file, the step returns the state unchanged and
emits `(cachePath, sum, 0, size)` with `size` the length of that file, whatever the
compressor and the temporary name are. When the cache path holds no file and
`CompressFile` and `Rename` succeed, a file is at the cache path afterwards and the emitted
size is its length; they do succeed when the source exists and the temporary name is
free. -/
theorem cache_step (L : Libs) (S : Sys) (tmp : String) (fs : FS) (i : result) :
    cachePath S i.sum = S.TempDir ++ "/spack" ++ String.mk (i.sum.val.flatMap fun b =>
      [Nat.digitChar (b.val / 16), Nat.digitChar (b.val % 16)]) ∧
    (cachePath S i.sum).length = S.TempDir.length + 6 + 32 ∧
    hex [0, 15, 16, 127, 128, 171, 205, 239, 255] = "000f107f80abcdefff" ∧
    (∀ h1 h2 : MD5Sum, cachePath S h1 = cachePath S h2 ↔ h1 = h2) ∧
    (∀ b, fs (cachePath S i.sum) = some b →
      ∀ (L1 : Libs) (tmp1 : String), CompressGroup.worker L1 S tmp1 fs i SelectCase.send =
        .ok (⟨cachePath S i.sum, i.sum, 0, (b.length : Int)⟩, fs)) ∧
    (fs (cachePath S i.sum) = none →
      (∀ (tmpfile : String) (fs1 fs2 : FS),
        CompressFile L S tmp fs i.path = .ok (tmpfile, fs1) →
        osRename fs1 tmpfile (cachePath S i.sum) = .ok fs2 →
        ∃ b, fs2 (cachePath S i.sum) = some b ∧
          CompressGroup.worker L S tmp fs i SelectCase.send =
            .ok (⟨cachePath S i.sum, i.sum, 0, (b.length : Int)⟩, fs2)) ∧
      (∀ data, fs i.path = some data → fs tmp = none →
        ∃ (fs1 fs2 : FS), CompressFile L S tmp fs i.path = .ok (tmp, fs1) ∧
          osRename fs1 tmp (cachePath S i.sum) = .ok fs2)) := by
  refine ⟨by rw [cachePath, hex_eq], ?_, by decide,
    fun h1 h2 => ⟨cachePath_injective S h1 h2, fun h => by rw [h]⟩, ?_, ?_⟩
  · have h := hex_length i.sum.val
    rw [i.sum.property] at h
    simp only [cachePath, String.length_append, h]
    rfl
  · intro b hb L1 tmp1
    exact CompressGroup_worker_hit L1 S tmp1 fs i b hb
  · intro hmiss
    refine ⟨fun tmpfile fs1 fs2 hc hr => CompressGroup_worker_miss L S tmp fs fs1 fs2 i tmpfile
      hmiss hc hr, ?_⟩
    intro data hdata htmp
    refine ⟨_, ((fs.put tmp (L.gzip (L.tarEntry
        ⟨i.path, (S.Mode i.path : Int), (data.length : Int), S.ModTime i.path⟩ data))).remove
        tmp).put (cachePath S i.sum) (L.gzip (L.tarEntry
        ⟨i.path, (S.Mode i.path : Int), (data.length : Int), S.ModTime i.path⟩ data)),
      (CompressFile_ok_iff L S tmp fs _ i.path tmp).2 ⟨data, hdata, htmp, rfl, rfl⟩, ?_⟩
    simp [osRename, FS.put_same]

/-! ## Theorems: `CompressFile` -/

/-- C9 (amended). Two invocations of `CompressFile` on the same path, with the same bytes,
mode and modification time at that path, each with a free temporary name, in whatever
states and under whatever temporary names they run: when the tar writer returns in the
second invocation the bytes it returned in the first for this header and these bytes, and
the gzip writer likewise for this stream, both invocations succeed, each changes the state
by its temporary file only, and the two blobs are the same bytes, namely the gzip stream of
the one tar entry whose header carries the path, the mode, the length and the modification
time and whose data are the file's bytes. -/
theorem CompressFile_deterministic (L1 L2 : Libs) (S1 S2 : Sys) (tmp1 tmp2 src : String)
    (fs1 fs2 : FS) (data : List Byte) (h1 : fs1 src = some data) (h2 : fs2 src = some data)
    (hmode : S1.Mode src = S2.Mode src) (htime : S1.ModTime src = S2.ModTime src)
    (ht1 : fs1 tmp1 = none) (ht2 : fs2 tmp2 = none)
    (htar : L1.tarEntry ⟨src, (S1.Mode src : Int), (data.length : Int), S1.ModTime src⟩ data =
      L2.tarEntry ⟨src, (S1.Mode src : Int), (data.length : Int), S1.ModTime src⟩ data)
    (hgz : L1.gzip (L1.tarEntry
        ⟨src, (S1.Mode src : Int), (data.length : Int), S1.ModTime src⟩ data) =
      L2.gzip (L1.tarEntry
        ⟨src, (S1.Mode src : Int), (data.length : Int), S1.ModTime src⟩ data)) :
    CompressFile L1 S1 tmp1 fs1 src = .ok (tmp1, fs1.put tmp1 (L1.gzip (L1.tarEntry
      ⟨src, (S1.Mode src : Int), (data.length : Int), S1.ModTime src⟩ data))) ∧
    CompressFile L2 S2 tmp2 fs2 src = .ok (tmp2, fs2.put tmp2 (L1.gzip (L1.tarEntry
      ⟨src, (S1.Mode src : Int), (data.length : Int), S1.ModTime src⟩ data))) := by
  refine ⟨(CompressFile_ok_iff L1 S1 tmp1 fs1 _ src tmp1).2 ⟨data, h1, ht1, rfl, rfl⟩,
    (CompressFile_ok_iff L2 S2 tmp2 fs2 _ src tmp2).2 ⟨data, h2, ht2, rfl, ?_⟩⟩
  rw [hgz, htar, hmode, htime]

/-- C9 (witness): the file `a` of `sampleTree` compressed under two temporary names, by two
instances of the libraries that agree on this entry; both blobs are the 15 bytes of
`sampleBlob`. -/
theorem CompressFile_deterministic_witness :
    CompressFile sampleLibs sampleSys "/tmp/spack1" sampleTree "a" =
      .ok ("/tmp/spack1", sampleTree.put "/tmp/spack1" sampleBlob) ∧
    CompressFile sampleLibs2 sampleSys "/tmp/spack2" sampleTree "a" =
      .ok ("/tmp/spack2", sampleTree.put "/tmp/spack2" sampleBlob) ∧
    sampleBlob = [31, 139, 97, 104, 101, 108, 108, 111, 32, 119, 111, 114, 108, 100, 10] :=
  ⟨(CompressFile_deterministic sampleLibs sampleLibs2 sampleSys sampleSys "/tmp/spack1"
      "/tmp/spack2" "a" sampleTree sampleTree helloWorld (by simp [sampleTree, FS.put, FS.empty])
      (by simp [sampleTree, FS.put, FS.empty]) rfl rfl
      (by simp [sampleTree, FS.put, FS.empty]) (by simp [sampleTree, FS.put, FS.empty])
      rfl (by decide)).1,
    (CompressFile_deterministic sampleLibs sampleLibs2 sampleSys sampleSys "/tmp/spack1"
      "/tmp/spack2" "a" sampleTree sampleTree helloWorld (by simp [sampleTree, FS.put, FS.empty])
      (by simp [sampleTree, FS.put, FS.empty]) rfl rfl
      (by simp [sampleTree, FS.put, FS.empty]) (by simp [sampleTree, FS.put, FS.empty])
      rfl (by decide)).2,
    by decide⟩

/-- C9 (counterexample). Two files `a` and `b` with the same bytes, mode and modification
time: `CompressFile` succeeds on both and the two blobs differ, since the tar header of
each carries its path. -/
theorem CompressFile_same_content_differs :
    ∃ (g1 g2 : FS) (b1 b2 : List Byte),
      sampleTree "a" = sampleTree "b" ∧
      CompressFile sampleLibs sampleSys "/tmp/spack1" sampleTree "a" = .ok ("/tmp/spack1", g1) ∧
      CompressFile sampleLibs sampleSys "/tmp/spack2" sampleTree "b" = .ok ("/tmp/spack2", g2) ∧
      g1 "/tmp/spack1" = some b1 ∧ g2 "/tmp/spack2" = some b2 ∧ b1 ≠ b2 := by
  refine ⟨_, _, _, _, by simp [sampleTree, FS.put, FS.empty],
    (CompressFile_ok_iff _ _ _ _ _ _ _).2 ⟨helloWorld, by simp [sampleTree, FS.put, FS.empty],
      by simp [sampleTree, FS.put, FS.empty], rfl, rfl⟩,
    (CompressFile_ok_iff _ _ _ _ _ _ _).2 ⟨helloWorld, by simp [sampleTree, FS.put, FS.empty],
      by simp [sampleTree, FS.put, FS.empty], rfl, rfl⟩,
    FS.put_same _ _ _, FS.put_same _ _ _, ?_⟩
  simp only [sampleLibs, sampleSys, helloWorld]
  decide

/-! ## Theorems: the size of the pack -/

theorem MD5Group_worker_ok (L : Libs) (fs : FS) (f : String) (h : result)
    (hrun : MD5Group.worker L fs (Archive.item f) SelectCase.send = .ok h) :
    ∃ data, fs f = some data ∧ h = ⟨f, L.md5Sum data, 0, 0⟩ := by
  unfold MD5Group.worker ReadFile Archive.item at hrun
  cases hf : fs f with
  | none => simp [hf] at hrun
  | some data =>
    simp only [hf, select, Except.ok.injEq] at hrun
    exact ⟨data, rfl, hrun.symm⟩

theorem CompressGroup_worker_spec (L : Libs) (S : Sys) (tmp : String) (fs fs1 : FS)
    (i r : result) (hrun : CompressGroup.worker L S tmp fs i SelectCase.send = .ok (r, fs1)) :
    r.path = cachePath S i.sum ∧
    (∃ b, fs1 r.path = some b ∧ r.size = (b.length : Int)) ∧
    (∀ p, p ≠ cachePath S i.sum → fs1 p = fs p) ∧
    (∀ p d, fs p = some d → fs1 p = some d) ∧
    r.sum = i.sum ∧ r.offset = 0 := by
  cases hfs : fs (cachePath S i.sum) with
  | some b =>
    rw [CompressGroup_worker_hit L S tmp fs i b hfs] at hrun
    simp only [Except.ok.injEq, Prod.mk.injEq] at hrun
    obtain ⟨rfl, rfl⟩ := hrun
    exact ⟨rfl, ⟨b, hfs, rfl⟩, fun _ _ => rfl, fun _ _ h => h, rfl, rfl⟩
  | none =>
    cases hc : CompressFile L S tmp fs i.path with
    | error e => simp [CompressGroup.worker, osStat, hfs, hc] at hrun
    | ok v =>
      obtain ⟨tmpfile, fsA⟩ := v
      cases hr : osRename fsA tmpfile (cachePath S i.sum) with
      | error e => simp [CompressGroup.worker, osStat, hfs, hc, hr] at hrun
      | ok fs2 =>
        obtain ⟨b, hb, hw⟩ := CompressGroup_worker_miss L S tmp fs fsA fs2 i tmpfile hfs hc hr
        rw [hw] at hrun
        simp only [Except.ok.injEq, Prod.mk.injEq] at hrun
        obtain ⟨rfl, rfl⟩ := hrun
        obtain ⟨data, _, htmp, rfl, rfl⟩ := (CompressFile_ok_iff L S tmp fs fsA i.path tmpfile).1 hc
        obtain ⟨d, _, hfs2⟩ := osRename_ok _ _ _ _ hr
        have hframe : ∀ p, p ≠ cachePath S i.sum → fs2 p = fs p := by
          intro p hp
          rw [hfs2, FS.put_other _ _ hp]
          by_cases hpt : p = tmpfile
          · subst hpt; simp [FS.remove, htmp]
          · simp [FS.remove, hpt, FS.put]
        refine ⟨rfl, ⟨b, hb, rfl⟩, hframe, ?_, rfl, rfl⟩
        intro p d hp
        have hne : p ≠ cachePath S i.sum := by
          intro h; rw [h, hfs] at hp; cases hp
        rw [hframe p hne]; exact hp

theorem sample_not_cache_path (h : MD5Sum) : "pack" ≠ cachePath sampleSys h := by
  intro heq
  have := congrArg String.data heq
  simp [cachePath, sampleSys] at this

theorem samplePath_eq : samplePath = "/tmp/spack68656c6c6f20776f726c640a00000000" := by
  decide

/-- C8 (witness): the cache path of the sample content spelled out, a miss on the first
file of `sampleTree`, then a hit on the state it leaves. -/
theorem cache_step_witness :
    cachePath sampleSys (sampleLibs.md5Sum helloWorld) =
      "/tmp/spack68656c6c6f20776f726c640a00000000" ∧
    CompressGroup.worker sampleLibs sampleSys "/tmp/spack1" sampleTree
        ⟨"a", sampleLibs.md5Sum helloWorld, 0, 0⟩ SelectCase.send =
      .ok (⟨"/tmp/spack68656c6c6f20776f726c640a00000000", sampleLibs.md5Sum helloWorld, 0, 15⟩,
        sampleCached) ∧
    CompressGroup.worker sampleLibs sampleSys "/tmp/spack2" sampleCached
        ⟨"b", sampleLibs.md5Sum helloWorld, 0, 0⟩ SelectCase.send =
      .ok (⟨"/tmp/spack68656c6c6f20776f726c640a00000000", sampleLibs.md5Sum helloWorld, 0, 15⟩,
        sampleCached) := by
  obtain ⟨_, _, _, _, _, hmiss⟩ := cache_step sampleLibs sampleSys "/tmp/spack1" sampleTree
    ⟨"a", sampleLibs.md5Sum helloWorld, 0, 0⟩
  obtain ⟨_, _, _, _, hhit, _⟩ := cache_step sampleLibs sampleSys "/tmp/spack2" sampleCached
    ⟨"b", sampleLibs.md5Sum helloWorld, 0, 0⟩
  have hp : cachePath sampleSys (sampleLibs.md5Sum helloWorld) =
      "/tmp/spack68656c6c6f20776f726c640a00000000" := samplePath_eq
  refine ⟨hp, ?_, ?_⟩
  · obtain ⟨b, hb, hw⟩ := (hmiss (by decide)).1 "/tmp/spack1"
      (sampleTree.put "/tmp/spack1" sampleBlob) sampleCached rfl rfl
    have : b = sampleBlob := by
      have hs : sampleCached samplePath = some sampleBlob := FS.put_same _ _ _
      exact Option.some.inj (hb.symm.trans hs)
    rw [hw, this, ← hp]; rfl
  · have := hhit sampleBlob (FS.put_same _ _ _) sampleLibs "/tmp/spack2"
    rw [this, ← hp]; rfl

/-! ## Theorems: `main` -/

theorem filepathWalk_collects (tree : List WalkEntry) :
    ∀ test : List String,
      (filepathWalk tree test).1 =
        test ++ (((tree.takeWhile fun e => e.err.isNone).filter fun e => e.regular).map
          fun e => e.path) ∧
      (filepathWalk tree test).2 = (tree.find? fun e => e.err.isSome).bind fun e => e.err := by
  induction tree with
  | nil => intro test; simp [filepathWalk]
  | cons e rest ih =>
    intro test
    cases herr : e.err with
    | some err => simp [filepathWalk, main.walkFn, herr]
    | none =>
      cases hreg : e.regular with
      | false => simp [filepathWalk, main.walkFn, herr, hreg, ih]
      | true => simp [filepathWalk, main.walkFn, herr, hreg, ih]

/-- C5. The code at a failing input. For every invocation with two arguments, `main` ends
with `log.Fatal` of what `Archive` returns on the paths collected so far, whatever
`filepath.Walk` returned. On the sample tree, whose third entry reports an error, the walk
collects `root/a` only and returns that error, and `main` then runs `Archive` on
`[root/a]` and logs its result: `<nil>` when it succeeds. -/
theorem main_discards_walk_error :
    (∀ (prog dst root : String) (tree : String → List WalkEntry)
        (archive : String → List String → Option Err),
      main [prog, dst, root] tree archive =
        logFatal (printError (archive dst (filepathWalk (tree root) []).1))) ∧
    filepathWalk sampleWalk [] = (["root/a"], some (Err.walk "root/b")) ∧
    main ["spack", "out", "root"] (fun _ => sampleWalk) (fun _ _ => none) = ⟨1, "<nil>"⟩ := by
  refine ⟨fun prog dst root tree archive => rfl, rfl, rfl⟩

/-- C6. The code at a failing input. `main` ends in `log.Fatal` on every path, so the
exit status is 1 for every invocation; with two arguments and `Archive` returning `nil`
the process logs `<nil>` and exits with status 1. -/
theorem main_exit_status :
    (∀ (args : List String) (tree : String → List WalkEntry)
        (archive : String → List String → Option Err),
      (main args tree archive).status = 1) ∧
    (∀ (prog dst root : String) (tree : String → List WalkEntry)
        (archive : String → List String → Option Err),
      archive dst (filepathWalk (tree root) []).1 = none →
        main [prog, dst, root] tree archive = ⟨1, "<nil>"⟩) := by
  refine ⟨?_, ?_⟩
  · intro args tree archive
    unfold main
    split <;> rfl
  · intro prog dst root tree archive h
    show logFatal (printError (archive dst (filepathWalk (tree root) []).1)) = _
    rw [h]; rfl

/-! ## Further properties of the worker bodies -/

/-- A goroutine of `MD5Group` whose `ReadFile` fails returns that error whichever case its
`select` would take; when the read succeeds and the send fires it emits the path with the
sum of the bytes read, offset and size zero. -/
theorem MD5Group_worker_result (L : Libs) (fs : FS) (i : result) (c : SelectCase) :
    (fs i.path = none → MD5Group.worker L fs i c = .error (Err.notExist i.path)) ∧
    (∀ data, fs i.path = some data →
      MD5Group.worker L fs i SelectCase.send = .ok ⟨i.path, L.md5Sum data, 0, 0⟩ ∧
      MD5Group.worker L fs i SelectCase.done = .error Err.canceled) := by
  constructor
  · intro h; simp [MD5Group.worker, ReadFile, h]
  · intro data h; simp [MD5Group.worker, ReadFile, h, select]

/-- When a `select` of the sequencing goroutine takes the cancellation case, the goroutine
returns `ctx.Err()`, having emitted exactly the chunks of the items received before. -/
theorem assigner_cancelled (evs : List (result × SelectCase))
    (h : ∃ e ∈ evs, e.2 = SelectCase.done) :
    ∀ o : Int, (WriteGroup.assigner o evs).2.2 = some Err.canceled ∧
      (WriteGroup.assigner o evs).1 =
        (WriteGroup.assigner o ((WriteGroup.forwarded evs).map fun i =>
          (i, SelectCase.send))).1 := by
  intro o
  refine ⟨?_, assigner_forwarded evs o⟩
  induction evs generalizing o with
  | nil => obtain ⟨e, he, _⟩ := h; cases he
  | cons e rest ih =>
    obtain ⟨i, c⟩ := e
    cases c with
    | done => simp [WriteGroup.assigner, WriteGroup.assignStep]
    | send =>
      have hrest : ∃ e ∈ rest, e.2 = SelectCase.done := by
        obtain ⟨e, he, hd⟩ := h
        rcases List.mem_cons.1 he with rfl | he
        · cases hd
        · exact ⟨e, he, hd⟩
      simpa [WriteGroup.assigner, WriteGroup.assignStep] using ih hrest _

/-- An instance of `assigner_cancelled`: the second of three selects is cancelled. -/
theorem assigner_cancelled_witness :
    (WriteGroup.assigner 0 [(⟨"a", MD5Sum.zero, 0, 5⟩, SelectCase.send),
        (⟨"b", MD5Sum.zero, 0, 7⟩, SelectCase.done),
        (⟨"c", MD5Sum.zero, 0, 11⟩, SelectCase.send)]).2.2 = some Err.canceled :=
  (assigner_cancelled _ ⟨(⟨"b", MD5Sum.zero, 0, 7⟩, SelectCase.done), by simp, rfl⟩ 0).1

/-- A second pass of a `CompressGroup` worker over the same sum, on the state the first
pass left, is a cache hit: it changes nothing and emits the same item, whatever source
path, compressor and temporary name it is given. -/
theorem CompressGroup_worker_second_pass (L : Libs) (S : Sys) (tmp : String) (fs fs1 : FS)
    (i r : result) (hrun : CompressGroup.worker L S tmp fs i SelectCase.send = .ok (r, fs1)) :
    ∀ (L1 : Libs) (tmp1 : String) (j : result), j.sum = i.sum →
      CompressGroup.worker L1 S tmp1 fs1 j SelectCase.send = .ok (r, fs1) := by
  intro L1 tmp1 j hj
  obtain ⟨hp, ⟨b, hb, hsz⟩, _, _, hsum, hoff⟩ :=
    CompressGroup_worker_spec L S tmp fs fs1 i r hrun
  have hb2 : fs1 (cachePath S j.sum) = some b := by rw [hj, ← hp]; exact hb
  rw [CompressGroup_worker_hit L1 S tmp1 fs1 j b hb2, hj]
  obtain ⟨rp, rs, ro, rz⟩ := r
  simp only at hp hsum hoff hsz
  subst hp hsum hoff hsz
  rfl

/-- An instance of `CompressGroup_worker_second_pass`: file `b` after file `a`. -/
theorem CompressGroup_worker_second_pass_witness :
    CompressGroup.worker sampleLibs sampleSys "/tmp/spack2" sampleCached
        ⟨"b", sampleLibs.md5Sum helloWorld, 0, 0⟩ SelectCase.send =
      .ok (⟨samplePath, sampleLibs.md5Sum helloWorld, 0, 15⟩, sampleCached) :=
  CompressGroup_worker_second_pass sampleLibs sampleSys "/tmp/spack1" sampleTree sampleCached
    ⟨"a", sampleLibs.md5Sum helloWorld, 0, 0⟩
    ⟨samplePath, sampleLibs.md5Sum helloWorld, 0, 15⟩ rfl sampleLibs "/tmp/spack2"
    ⟨"b", sampleLibs.md5Sum helloWorld, 0, 0⟩ rfl

/-- An invocation whose argument count is not three ends in `log.Fatal("Invalid args!")`
whatever the tree and whatever `Archive` would do: neither is consulted. -/
theorem main_usage_error (args : List String) (h : args.length ≠ 3)
    (tree : String → List WalkEntry) (archive : String → List String → Option Err) :
    main args tree archive = ⟨1, "Invalid args!"⟩ := by
  unfold main
  rw [if_pos h]; rfl

/-- An instance of `main_usage_error`: one argument only. -/
theorem main_usage_error_witness :
    main ["spack", "out"] (fun _ => sampleWalk) (fun _ _ => none) = ⟨1, "Invalid args!"⟩ :=
  main_usage_error ["spack", "out"] (by decide) _ _

/-! ## Theorems: runs of `Archive` -/

theorem step_spec (L : Libs) (S : Sys) (dst : String) (σ σ1 : State) (a : Action)
    (h : Archive.step L S dst σ a = some σ1) : Archive.StepOf L S dst σ a σ1 := by
  cases a with
  | hash k =>
    simp only [Archive.step] at h
    split at h
    · rename_i f hk
      split at h
      · rename_i v hm
        obtain ⟨d, hd, rfl⟩ := MD5Group_worker_ok L σ.fs f v hm
        cases h
        exact .hash k f d hk hd
      · cases h
    · cases h
  | stat k =>
    simp only [Archive.step] at h
    split at h
    · rename_i i hk
      cases hb : σ.fs (cachePath S i.sum) with
      | none =>
        simp only [osStat, hb] at h
        cases h
        exact .miss k i hk hb
      | some b =>
        simp only [osStat, hb] at h
        cases h
        exact .hit k i b hk hb
    · cases h
  | compress k tmp =>
    simp only [Archive.step] at h
    split at h
    · rename_i i hk
      split at h
      · rename_i tmpfile fs1 hc
        obtain ⟨d, hd, ht, htf, hfs⟩ :=
          (CompressFile_ok_iff L S tmp σ.fs fs1 i.path tmpfile).1 hc
        rw [htf, hfs] at h
        cases h
        exact .compress k tmp i d hk hd ht
      · cases h
    · cases h
  | rename k =>
    simp only [Archive.step] at h
    split at h
    · rename_i i t hk
      split at h
      · rename_i fs2 hr
        obtain ⟨b, hb, rfl⟩ := osRename_ok _ _ _ _ hr
        cases h
        exact .rename k i t b hk hb
      · cases h
    · cases h
  | restat k =>
    simp only [Archive.step] at h
    split at h
    · rename_i i hk
      cases hb : σ.fs (cachePath S i.sum) with
      | none => simp only [osStat, hb] at h; cases h
      | some b =>
        simp only [osStat, hb] at h
        cases h
        exact .restat k i b hk hb
    · cases h
  | assign k =>
    simp only [Archive.step] at h
    split at h
    · rename_i r hk
      simp only [WriteGroup.assignStep] at h
      cases h
      exact .assign k r hk
    · cases h
  | write k =>
    simp only [Archive.step] at h
    split at h
    · rename_i c hk
      cases hw : InsertFile σ.fs dst c.path c.offset with
      | error e => simp only [WriteGroup.worker, hw] at h; cases h
      | ok fs1 =>
        simp only [WriteGroup.worker, hw, select] at h
        cases h
        exact .write k c fs1 hk hw
    · cases h

theorem mem_of_getElem? {α : Type} {l : List α} {k : Nat} {y : α} (hk : l[k]? = some y) :
    y ∈ l :=
  List.mem_iff_getElem?.2 ⟨k, hk⟩

theorem mem_set_of_ne {α : Type} {l : List α} {k : Nat} {x y : α} (z : α) (hx : x ∈ l)
    (hk : l[k]? = some y) (hne : x ≠ y) : x ∈ l.set k z := by
  obtain ⟨j, hj⟩ := List.mem_iff_getElem?.1 hx
  have hkj : k ≠ j := by
    rintro rfl
    rw [hk] at hj
    exact hne (Option.some.inj hj).symm
  exact List.mem_iff_getElem?.2 ⟨j, by rw [List.getElem?_set_ne hkj]; exact hj⟩

theorem mem_set_new {α : Type} {l : List α} {k : Nat} {y : α} (z : α) (hk : l[k]? = some y) :
    z ∈ l.set k z := by
  have hlt : k < l.length := by
    by_contra h
    rw [List.getElem?_eq_none (by omega)] at hk
    cases hk
  exact List.mem_set l k hlt z

theorem sum_map_set {α : Type} (g : α → Int) (l : List α) :
    ∀ (k : Nat) (y z : α), l[k]? = some y →
      ((l.set k z).map g).sum = (l.map g).sum - g y + g z := by
  induction l with
  | nil => intro k y z h; simp at h
  | cons a rest ih =>
    intro k y z h
    cases k with
    | zero =>
      simp only [List.getElem?_cons_zero, Option.some.injEq] at h
      subst h
      simp only [List.set_cons_zero, List.map_cons, List.sum_cons]
      omega
    | succ k =>
      simp only [List.getElem?_cons_succ] at h
      simp only [List.set_cons_succ, List.map_cons, List.sum_cons, ih k y z h]
      omega

theorem assigner_send_append (l : List result) (x : result) :
    ∀ o : Int,
      (WriteGroup.assigner o ((l ++ [x]).map fun i => (i, SelectCase.send))).1 =
        (WriteGroup.assigner o (l.map fun i => (i, SelectCase.send))).1 ++
          [⟨x.path, x.sum,
            (WriteGroup.assigner o (l.map fun i => (i, SelectCase.send))).2.1, x.size⟩] ∧
      (WriteGroup.assigner o ((l ++ [x]).map fun i => (i, SelectCase.send))).2.1 =
        wrap64 ((WriteGroup.assigner o (l.map fun i => (i, SelectCase.send))).2.1 + x.size) := by
  induction l with
  | nil => intro o; simp [WriteGroup.assigner, WriteGroup.assignStep]
  | cons i rest ih =>
    intro o
    obtain ⟨h1, h2⟩ := ih (wrap64 (o + i.size))
    simp only [List.cons_append, List.map_cons, WriteGroup.assigner, WriteGroup.assignStep]
    exact ⟨congrArg _ h1, h2⟩

theorem sumSizes_append (l : List result) (x : result) :
    sumSizes (l ++ [x]) = sumSizes l + x.size := by
  simp [sumSizes]

theorem Phase.recorded_early {p : Phase} (h : p.early) : p.recorded = 0 := by
  cases p <;> first | rfl | exact absurd h id

theorem Phase.count_early {p : Phase} (h : p.early) : p.count = 0 := by
  cases p <;> first | rfl | exact absurd h id

/-- A call that moves an item between two phases before `chunks` and leaves the length of
the destination as it was keeps the invariant. -/
theorem Inv_early (S : Sys) (dst : String) (σ : State) (fs1 : FS) (k : Nat) (p p1 : Phase)
    (hinv : Archive.Inv S dst σ) (hk : σ.phases[k]? = some p) (hp : p.early)
    (hp1 : p1.early) (hat : Phase.atCachePath S p1)
    (htm : ∀ i t, p1 = Phase.compressed i t → t ≠ dst)
    (hfs : FS.size fs1 dst = FS.size σ.fs dst) :
    Archive.Inv S dst ⟨fs1, σ.offset, σ.chunks, σ.phases.set k p1⟩ := by
  have hold : ∀ q, q ∈ σ.phases.set k p1 → q ∈ σ.phases ∨ q = p1 :=
    fun q hq => List.mem_or_eq_of_mem_set hq
  have hnew : ∀ q, q ∈ σ.phases → ¬ q.early → q ∈ σ.phases.set k p1 := by
    intro q hq hne
    exact mem_set_of_ne p1 hq hk (fun h => hne (h ▸ hp))
  refine ⟨?_, ?_, hinv.sent, ?_, ?_, ?_, ?_, ?_⟩
  · intro q hq
    rcases hold q hq with h | h
    · exact hinv.atCache q h
    · rw [h]; exact hat
  · intro i t hq
    rcases hold _ hq with h | h
    · exact hinv.tmps i t h
    · exact htm i t h.symm
  · intro c
    rw [hinv.link c]
    constructor
    · rintro (h | ⟨n, h⟩)
      · exact Or.inl (hnew _ h id)
      · exact Or.inr ⟨n, hnew _ h id⟩
    · rintro (h | ⟨n, h⟩)
      · rcases hold _ h with h | h
        · exact Or.inl h
        · rw [← h] at hp1; exact absurd hp1 id
      · rcases hold _ h with h | h
        · exact Or.inr ⟨n, h⟩
        · rw [← h] at hp1; exact absurd hp1 id
  · show sumSizes σ.chunks = ((σ.phases.set k p1).map Phase.recorded).sum
    rw [sum_map_set Phase.recorded σ.phases k p p1 hk, Phase.recorded_early hp,
      Phase.recorded_early hp1, hinv.sums]
    omega
  · show ((σ.chunks.length : Nat) : Int) = ((σ.phases.set k p1).map Phase.count).sum
    rw [sum_map_set Phase.count σ.phases k p p1 hk, Phase.count_early hp,
      Phase.count_early hp1, hinv.count]
    omega
  · intro c n hq
    show _ ∧ _ ∧ (n ≠ 0 → c.offset.toNat + n ≤ FS.size fs1 dst)
    rw [hfs]
    rcases hold _ hq with h | h
    · exact hinv.wrote c n h
    · rw [← h] at hp1; exact absurd hp1 id
  · show FS.size fs1 dst = 0 ∨ ∃ c n, Phase.written c n ∈ σ.phases.set k p1 ∧ n ≠ 0 ∧
      FS.size fs1 dst = c.offset.toNat + n
    rw [hfs]
    rcases hinv.top with h | ⟨c, n, h1, h2, h3⟩
    · exact Or.inl h
    · exact Or.inr ⟨c, n, hnew _ h1 id, h2, h3⟩

theorem FS.size_put_other (fs : FS) {p q : String} (d : List Byte) (h : q ≠ p) :
    FS.size (fs.put p d) q = FS.size fs q := by
  simp [FS.size, FS.put, h]

theorem FS.size_remove_other (fs : FS) {p q : String} (h : q ≠ p) :
    FS.size (fs.remove p) q = FS.size fs q := by
  simp [FS.size, FS.remove, h]

theorem Inv_assign (S : Sys) (dst : String) (σ : State) (k : Nat) (r : result)
    (hinv : Archive.Inv S dst σ) (hk : σ.phases[k]? = some (Phase.archived r)) :
    Archive.Inv S dst ⟨σ.fs, wrap64 (σ.offset + r.size),
      σ.chunks ++ [⟨r.path, r.sum, σ.offset, r.size⟩],
      σ.phases.set k (Phase.chunked ⟨r.path, r.sum, σ.offset, r.size⟩)⟩ := by
  have hold : ∀ q, q ∈ σ.phases.set k (Phase.chunked ⟨r.path, r.sum, σ.offset, r.size⟩) →
      q ∈ σ.phases ∨ q = Phase.chunked ⟨r.path, r.sum, σ.offset, r.size⟩ :=
    fun q hq => List.mem_or_eq_of_mem_set hq
  have hnew : ∀ q, q ∈ σ.phases → ¬ q.early →
      q ∈ σ.phases.set k (Phase.chunked ⟨r.path, r.sum, σ.offset, r.size⟩) := by
    intro q hq hne
    exact mem_set_of_ne _ hq hk (fun h => hne (by rw [h]; exact trivial))
  have hr : r.path = cachePath S r.sum := hinv.atCache _ (mem_of_getElem? hk)
  obtain ⟨hs1, hs2⟩ := hinv.sent
  obtain ⟨ha1, ha2⟩ := assigner_send_append σ.chunks ⟨r.path, r.sum, σ.offset, r.size⟩ 0
  refine ⟨?_, ?_, ⟨?_, ?_⟩, ?_, ?_, ?_, ?_, ?_⟩
  · intro q hq
    rcases hold q hq with h | h
    · exact hinv.atCache q h
    · rw [h]; exact hr
  · intro i t hq
    rcases hold _ hq with h | h
    · exact hinv.tmps i t h
    · cases h
  · show WriteGroup.chunks (σ.chunks ++ [⟨r.path, r.sum, σ.offset, r.size⟩]) = _
    unfold WriteGroup.chunks at hs1 ⊢
    rw [ha1, hs1, ← hs2]
  · show wrap64 (σ.offset + r.size) = _
    rw [ha2, ← hs2]
  · intro c
    simp only [List.mem_append, List.mem_singleton]
    rw [hinv.link c]
    constructor
    · rintro ((h | ⟨n, h⟩) | h)
      · exact Or.inl (hnew _ h id)
      · exact Or.inr ⟨n, hnew _ h id⟩
      · rw [h]; exact Or.inl (mem_set_new _ hk)
    · rintro (h | ⟨n, h⟩)
      · rcases hold _ h with h | h
        · exact Or.inl (Or.inl h)
        · exact Or.inr (Phase.chunked.inj h)
      · rcases hold _ h with h | h
        · exact Or.inl (Or.inr ⟨n, h⟩)
        · cases h
  · show sumSizes (σ.chunks ++ [⟨r.path, r.sum, σ.offset, r.size⟩]) = _
    rw [sumSizes_append, sum_map_set Phase.recorded σ.phases k _ _ hk, hinv.sums]
    simp only [Phase.recorded]
    omega
  · show (((σ.chunks ++ [(⟨r.path, r.sum, σ.offset, r.size⟩ : result)]).length : Nat) : Int) = _
    rw [sum_map_set Phase.count σ.phases k _ _ hk, ← hinv.count]
    simp only [Phase.count, List.length_append, List.length_singleton, Nat.cast_add,
      Nat.cast_one]
    omega
  · intro c n hq
    rcases hold _ hq with h | h
    · exact hinv.wrote c n h
    · cases h
  · rcases hinv.top with h | ⟨c, n, h1, h2, h3⟩
    · exact Or.inl h
    · exact Or.inr ⟨c, n, hnew _ h1 id, h2, h3⟩

theorem Inv_write (S : Sys) (dst : String) (σ : State) (k : Nat) (c : result) (fs1 : FS)
    (hdst : ∀ h : MD5Sum, dst ≠ cachePath S h)
    (hinv : Archive.Inv S dst σ) (hk : σ.phases[k]? = some (Phase.chunked c))
    (hw : InsertFile σ.fs dst c.path c.offset = .ok fs1) :
    Archive.Inv S dst ⟨fs1, σ.offset, σ.chunks,
      σ.phases.set k (Phase.written c (FS.size σ.fs c.path))⟩ := by
  have hold : ∀ q, q ∈ σ.phases.set k (Phase.written c (FS.size σ.fs c.path)) →
      q ∈ σ.phases ∨ q = Phase.written c (FS.size σ.fs c.path) :=
    fun q hq => List.mem_or_eq_of_mem_set hq
  have hkeep : ∀ q, q ∈ σ.phases → q ≠ Phase.chunked c →
      q ∈ σ.phases.set k (Phase.written c (FS.size σ.fs c.path)) :=
    fun q hq hne => mem_set_of_ne _ hq hk hne
  have hc : c.path = cachePath S c.sum := hinv.atCache _ (mem_of_getElem? hk)
  have hne : c.path ≠ dst := by rw [hc]; exact fun h => hdst _ h.symm
  obtain ⟨s, hs, ho, hfit, rfl⟩ := (InsertFile_ok_iff σ.fs fs1 dst c.path c.offset hne).1 hw
  have hn : FS.size σ.fs c.path = s.length := by simp [FS.size, hs]
  have hsize : FS.size (σ.fs.put dst (writeAt ((σ.fs dst).getD []) c.offset.toNat s)) dst =
      (writeAt ((σ.fs dst).getD []) c.offset.toNat s).length := by
    simp [FS.size, FS.put]
  have hold_size : FS.size σ.fs dst = ((σ.fs dst).getD []).length := rfl
  have hmono : FS.size σ.fs dst ≤
      FS.size (σ.fs.put dst (writeAt ((σ.fs dst).getD []) c.offset.toNat s)) dst := by
    rw [hsize, hold_size]
    by_cases h0 : s = []
    · subst h0; rw [writeAt_nil]
    · rw [writeAt_length _ _ _ h0]; omega
  refine ⟨?_, ?_, hinv.sent, ?_, ?_, ?_, ?_, ?_⟩
  · intro q hq
    rcases hold q hq with h | h
    · exact hinv.atCache q h
    · rw [h]; exact hc
  · intro i t hq
    rcases hold _ hq with h | h
    · exact hinv.tmps i t h
    · cases h
  · intro c1
    rw [hinv.link c1]
    constructor
    · rintro (h | ⟨n, h⟩)
      · by_cases hcc : c1 = c
        · subst hcc; exact Or.inr ⟨_, mem_set_new _ hk⟩
        · exact Or.inl (hkeep _ h (fun h2 => hcc (Phase.chunked.inj h2)))
      · exact Or.inr ⟨n, hkeep _ h (fun h2 => by cases h2)⟩
    · rintro (h | ⟨n, h⟩)
      · rcases hold _ h with h | h
        · exact Or.inl h
        · cases h
      · rcases hold _ h with h | h
        · exact Or.inr ⟨n, h⟩
        · have : c1 = c := (Phase.written.inj h).1
          rw [this]; exact Or.inl (mem_of_getElem? hk)
  · show sumSizes σ.chunks = _
    rw [sum_map_set Phase.recorded σ.phases k _ _ hk, hinv.sums]
    simp only [Phase.recorded]
    omega
  · show ((σ.chunks.length : Nat) : Int) = _
    rw [sum_map_set Phase.count σ.phases k _ _ hk, hinv.count]
    simp only [Phase.count]
    omega
  · intro c1 n hq
    rcases hold _ hq with h | h
    · obtain ⟨h1, h2, h3⟩ := hinv.wrote c1 n h
      exact ⟨h1, h2, fun hn0 => le_trans (h3 hn0) hmono⟩
    · obtain ⟨rfl, rfl⟩ := Phase.written.inj h
      refine ⟨ho, ?_, ?_⟩
      · rcases hfit with h0 | h0
        · left; rw [hn, h0]; rfl
        · right; rw [hn]; exact h0
      · intro hn0
        have h0 : s ≠ [] := by
          intro h0; rw [hn, h0] at hn0; exact hn0 rfl
        show _ ≤ FS.size (σ.fs.put dst (writeAt ((σ.fs dst).getD []) c1.offset.toNat s)) dst
        rw [hsize, writeAt_length _ _ _ h0, hn]
        omega
  · show FS.size (σ.fs.put dst (writeAt ((σ.fs dst).getD []) c.offset.toNat s)) dst = 0 ∨ _
    by_cases h0 : s = []
    · rcases hinv.top with h | ⟨c1, n, h1, h2, h3⟩
      · left; rw [hsize, h0, writeAt_nil]; exact h
      · right
        refine ⟨c1, n, hkeep _ h1 (fun h2 => by cases h2), h2, ?_⟩
        rw [hsize, h0, writeAt_nil]; exact h3
    · by_cases hbig : ((σ.fs dst).getD []).length ≤ c.offset.toNat + s.length
      · right
        refine ⟨c, FS.size σ.fs c.path, mem_set_new _ hk, ?_, ?_⟩
        · rw [hn]; exact fun h => h0 (List.length_eq_zero.1 h)
        · rw [hsize, writeAt_length _ _ _ h0, hn]; omega
      · have heq : FS.size (σ.fs.put dst (writeAt ((σ.fs dst).getD []) c.offset.toNat s)) dst =
            FS.size σ.fs dst := by
          rw [hsize, writeAt_length _ _ _ h0, hold_size]; omega
        rcases hinv.top with h | ⟨c1, n, h1, h2, h3⟩
        · left; rw [heq]; exact h
        · right
          exact ⟨c1, n, hkeep _ h1 (fun h2 => by cases h2), h2, by rw [heq]; exact h3⟩

theorem Inv_step (L : Libs) (S : Sys) (dst : String) (σ σ1 : State) (a : Action)
    (hdst : ∀ h : MD5Sum, dst ≠ cachePath S h)
    (htmp : ∀ k tmp, a = Action.compress k tmp → tmp ≠ dst)
    (hinv : Archive.Inv S dst σ) (hstep : Archive.StepOf L S dst σ a σ1) :
    Archive.Inv S dst σ1 := by
  cases hstep with
  | hash k f d hk hd =>
    exact Inv_early S dst σ σ.fs k _ _ hinv hk trivial trivial trivial
      (fun i t h => by cases h) rfl
  | hit k i b hk hb =>
    exact Inv_early S dst σ σ.fs k _ _ hinv hk trivial trivial rfl
      (fun i t h => by cases h) rfl
  | miss k i hk hb =>
    exact Inv_early S dst σ σ.fs k _ _ hinv hk trivial trivial trivial
      (fun i t h => by cases h) rfl
  | compress k tmp i d hk hd ht =>
    have hne : dst ≠ tmp := fun h => htmp k tmp rfl h.symm
    exact Inv_early S dst σ _ k _ _ hinv hk trivial trivial trivial
      (fun i1 t h => by cases h; exact fun h2 => hne h2.symm)
      (FS.size_put_other _ _ hne)
  | rename k i t b hk hb =>
    have hne : dst ≠ t := fun h => hinv.tmps i t (mem_of_getElem? hk) h.symm
    exact Inv_early S dst σ _ k _ _ hinv hk trivial trivial trivial
      (fun i1 t1 h => by cases h)
      (by rw [FS.size_put_other _ _ (hdst _), FS.size_remove_other _ hne])
  | restat k i b hk hb =>
    exact Inv_early S dst σ σ.fs k _ _ hinv hk trivial trivial rfl
      (fun i t h => by cases h) rfl
  | assign k r hk => exact Inv_assign S dst σ k r hinv hk
  | write k c fs1 hk hw => exact Inv_write S dst σ k c fs1 hdst hinv hk hw

theorem items_set (L : Libs) (fs0 : FS) (filelist : List String) (phases : List Phase)
    (k0 : Nat) (p p1 : Phase) (hk : phases[k0]? = some p)
    (hitems : ∀ (k : Nat) (f : String) (d : List Byte), filelist[k]? = some f →
      fs0 f = some d → phases[k]? = some (Phase.queued f) ∨
        ∃ q : Phase, phases[k]? = some q ∧ q.sum? = some (L.md5Sum d))
    (hnew : ∀ (f : String) (d : List Byte), filelist[k0]? = some f → fs0 f = some d →
      (p = Phase.queued f ∨ p.sum? = some (L.md5Sum d)) → p1.sum? = some (L.md5Sum d)) :
    ∀ (k : Nat) (f : String) (d : List Byte), filelist[k]? = some f → fs0 f = some d →
      (phases.set k0 p1)[k]? = some (Phase.queued f) ∨
        ∃ q : Phase, (phases.set k0 p1)[k]? = some q ∧ q.sum? = some (L.md5Sum d) := by
  intro k f d hf hd
  by_cases hkk : k0 = k
  · subst hkk
    have hlt : k0 < phases.length := by
      by_contra h
      rw [List.getElem?_eq_none (by omega)] at hk
      cases hk
    right
    refine ⟨p1, by rw [List.getElem?_set_self hlt], hnew f d hf hd ?_⟩
    rcases hitems k0 f d hf hd with h | ⟨q, h1, h2⟩
    · rw [hk] at h; exact Or.inl (Option.some.inj h)
    · rw [hk] at h1; cases h1; exact Or.inr h2
  · rw [List.getElem?_set_ne hkk]
    exact hitems k f d hf hd

theorem Kept_step (L : Libs) (S : Sys) (dst : String) (fs0 : FS) (filelist : List String)
    (σ σ1 : State) (a : Action) (habsent : fs0 dst = none)
    (hkept : Archive.Kept L S fs0 filelist σ)
    (hstep : Archive.StepOf L S dst σ a σ1) : Archive.Kept L S fs0 filelist σ1 := by
  have hnone : ∀ p, σ.fs p = none → fs0 p = none := by
    intro p hp
    cases h : fs0 p with
    | none => rfl
    | some d => rw [hkept.keep p d h] at hp; cases hp
  have hsame : ∀ (k0 : Nat) (p p1 : Phase), σ.phases[k0]? = some p →
      (∀ f, p ≠ Phase.queued f) → p1.sum? = p.sum? →
      ∀ (f : String) (d : List Byte), filelist[k0]? = some f → fs0 f = some d →
        (p = Phase.queued f ∨ p.sum? = some (L.md5Sum d)) → p1.sum? = some (L.md5Sum d) := by
    intro k0 p p1 _ hq hs f d _ _ h
    rcases h with h | h
    · exact absurd h (hq f)
    · rw [hs]; exact h
  cases hstep with
  | hash k f d hk hd =>
    refine ⟨by simp [hkept.len], hkept.keep, ?_, ?_, ?_⟩
    · intro i t hq
      rcases List.mem_or_eq_of_mem_set hq with h | h
      · exact hkept.fresh i t h
      · cases h
    · rintro i (hq | ⟨t, hq⟩)
      · rcases List.mem_or_eq_of_mem_set hq with h | h
        · exact hkept.absent i (Or.inl h)
        · cases h
      · rcases List.mem_or_eq_of_mem_set hq with h | h
        · exact hkept.absent i (Or.inr ⟨t, h⟩)
        · cases h
    · apply items_set L fs0 filelist σ.phases k _ _ hk hkept.items
      intro f1 d1 _ hd1 h
      rcases h with h | h
      · cases h
        have := hkept.keep f d1 hd1
        rw [hd] at this
        cases this
        rfl
      · cases h
  | hit k i b hk hb =>
    refine ⟨by simp [hkept.len], hkept.keep, ?_, ?_, ?_⟩
    · intro i1 t hq
      rcases List.mem_or_eq_of_mem_set hq with h | h
      · exact hkept.fresh i1 t h
      · cases h
    · rintro i1 (hq | ⟨t, hq⟩)
      · rcases List.mem_or_eq_of_mem_set hq with h | h
        · exact hkept.absent i1 (Or.inl h)
        · cases h
      · rcases List.mem_or_eq_of_mem_set hq with h | h
        · exact hkept.absent i1 (Or.inr ⟨t, h⟩)
        · cases h
    · exact items_set L fs0 filelist σ.phases k _ _ hk hkept.items
        (hsame k _ _ hk (fun f h => by cases h) rfl)
  | miss k i hk hb =>
    refine ⟨by simp [hkept.len], hkept.keep, ?_, ?_, ?_⟩
    · intro i1 t hq
      rcases List.mem_or_eq_of_mem_set hq with h | h
      · exact hkept.fresh i1 t h
      · cases h
    · rintro i1 (hq | ⟨t, hq⟩)
      · rcases List.mem_or_eq_of_mem_set hq with h | h
        · exact hkept.absent i1 (Or.inl h)
        · cases h; exact hnone _ hb
      · rcases List.mem_or_eq_of_mem_set hq with h | h
        · exact hkept.absent i1 (Or.inr ⟨t, h⟩)
        · cases h
    · exact items_set L fs0 filelist σ.phases k _ _ hk hkept.items
        (hsame k _ _ hk (fun f h => by cases h) rfl)
  | compress k tmp i d hk hd ht =>
    refine ⟨by simp [hkept.len], ?_, ?_, ?_, ?_⟩
    · intro p d1 hp
      have hne : p ≠ tmp := by
        intro h; rw [h, hnone tmp ht] at hp; cases hp
      show (σ.fs.put tmp _) p = some d1
      rw [FS.put_other _ _ hne]; exact hkept.keep p d1 hp
    · intro i1 t hq
      rcases List.mem_or_eq_of_mem_set hq with h | h
      · exact hkept.fresh i1 t h
      · cases h; exact hnone _ ht
    · rintro i1 (hq | ⟨t, hq⟩)
      · rcases List.mem_or_eq_of_mem_set hq with h | h
        · exact hkept.absent i1 (Or.inl h)
        · cases h
      · rcases List.mem_or_eq_of_mem_set hq with h | h
        · exact hkept.absent i1 (Or.inr ⟨t, h⟩)
        · cases h; exact hkept.absent i (Or.inl (mem_of_getElem? hk))
    · exact items_set L fs0 filelist σ.phases k _ _ hk hkept.items
        (hsame k _ _ hk (fun f h => by cases h) rfl)
  | rename k i t b hk hb =>
    have hmem : Phase.compressed i t ∈ σ.phases := mem_of_getElem? hk
    refine ⟨by simp [hkept.len], ?_, ?_, ?_, ?_⟩
    · intro p d1 hp
      have hne1 : p ≠ cachePath S i.sum := by
        intro h; rw [h, hkept.absent i (Or.inr ⟨t, hmem⟩)] at hp; cases hp
      have hne2 : p ≠ t := by
        intro h; rw [h, hkept.fresh i t hmem] at hp; cases hp
      show ((σ.fs.remove t).put (cachePath S i.sum) b) p = some d1
      rw [FS.put_other _ _ hne1]
      simp only [FS.remove, hne2, if_false]
      exact hkept.keep p d1 hp
    · intro i1 t1 hq
      rcases List.mem_or_eq_of_mem_set hq with h | h
      · exact hkept.fresh i1 t1 h
      · cases h
    · rintro i1 (hq | ⟨t1, hq⟩)
      · rcases List.mem_or_eq_of_mem_set hq with h | h
        · exact hkept.absent i1 (Or.inl h)
        · cases h
      · rcases List.mem_or_eq_of_mem_set hq with h | h
        · exact hkept.absent i1 (Or.inr ⟨t1, h⟩)
        · cases h
    · exact items_set L fs0 filelist σ.phases k _ _ hk hkept.items
        (hsame k _ _ hk (fun f h => by cases h) rfl)
  | restat k i b hk hb =>
    refine ⟨by simp [hkept.len], hkept.keep, ?_, ?_, ?_⟩
    · intro i1 t hq
      rcases List.mem_or_eq_of_mem_set hq with h | h
      · exact hkept.fresh i1 t h
      · cases h
    · rintro i1 (hq | ⟨t, hq⟩)
      · rcases List.mem_or_eq_of_mem_set hq with h | h
        · exact hkept.absent i1 (Or.inl h)
        · cases h
      · rcases List.mem_or_eq_of_mem_set hq with h | h
        · exact hkept.absent i1 (Or.inr ⟨t, h⟩)
        · cases h
    · exact items_set L fs0 filelist σ.phases k _ _ hk hkept.items
        (hsame k _ _ hk (fun f h => by cases h) rfl)
  | assign k r hk =>
    refine ⟨by simp [hkept.len], hkept.keep, ?_, ?_, ?_⟩
    · intro i1 t hq
      rcases List.mem_or_eq_of_mem_set hq with h | h
      · exact hkept.fresh i1 t h
      · cases h
    · rintro i1 (hq | ⟨t, hq⟩)
      · rcases List.mem_or_eq_of_mem_set hq with h | h
        · exact hkept.absent i1 (Or.inl h)
        · cases h
      · rcases List.mem_or_eq_of_mem_set hq with h | h
        · exact hkept.absent i1 (Or.inr ⟨t, h⟩)
        · cases h
    · exact items_set L fs0 filelist σ.phases k _ _ hk hkept.items
        (hsame k _ _ hk (fun f h => by cases h) rfl)
  | write k c fs1 hk hw =>
    refine ⟨by simp [hkept.len], ?_, ?_, ?_, ?_⟩
    · intro p d1 hp
      have hne : p ≠ dst := by
        intro h; rw [h, habsent] at hp; cases hp
      show fs1 p = some d1
      unfold InsertFile at hw
      simp only at hw
      split at hw
      · cases hw
      · split at hw
        · cases hw
        · split at hw
          · cases hw
          · cases hw
            rw [FS.put_other _ _ hne, FS.put_other _ _ hne]
            exact hkept.keep p d1 hp
    · intro i1 t hq
      rcases List.mem_or_eq_of_mem_set hq with h | h
      · exact hkept.fresh i1 t h
      · cases h
    · rintro i1 (hq | ⟨t, hq⟩)
      · rcases List.mem_or_eq_of_mem_set hq with h | h
        · exact hkept.absent i1 (Or.inl h)
        · cases h
      · rcases List.mem_or_eq_of_mem_set hq with h | h
        · exact hkept.absent i1 (Or.inr ⟨t, h⟩)
        · cases h
    · exact items_set L fs0 filelist σ.phases k _ _ hk hkept.items
        (hsame k _ _ hk (fun f h => by cases h) rfl)

theorem Inv_init (S : Sys) (dst : String) (fs : FS) (filelist : List String)
    (habsent : fs dst = none) : Archive.Inv S dst (Archive.init fs filelist) := by
  have hq : ∀ p ∈ (Archive.init fs filelist).phases, ∃ f, p = Phase.queued f := by
    intro p hp
    obtain ⟨f, _, rfl⟩ := List.mem_map.1 hp
    exact ⟨f, rfl⟩
  have hzero : ∀ (g : Phase → Int), (∀ f, g (Phase.queued f) = 0) →
      ((filelist.map Phase.queued).map g).sum = 0 := by
    intro g hg
    induction filelist with
    | nil => rfl
    | cons f rest ih =>
      simp only [List.map_cons, List.sum_cons, hg]
      have := ih (fun p hp => by
        obtain ⟨f1, _, rfl⟩ := List.mem_map.1 hp
        exact ⟨f1, rfl⟩)
      simpa using this
  refine ⟨?_, ?_, ⟨rfl, rfl⟩, ?_, ?_, ?_, ?_, ?_⟩
  · intro p hp
    obtain ⟨f, rfl⟩ := hq p hp
    trivial
  · intro i t hp
    obtain ⟨f, h⟩ := hq _ hp
    cases h
  · intro c
    constructor
    · intro h; cases h
    · rintro (h | ⟨n, h⟩)
      · obtain ⟨f, h⟩ := hq _ h; cases h
      · obtain ⟨f, h⟩ := hq _ h; cases h
  · show sumSizes [] = _
    rw [show (Archive.init fs filelist).phases = filelist.map Phase.queued from rfl,
      hzero Phase.recorded (fun _ => rfl)]
    rfl
  · show (([] : List result).length : Int) = _
    rw [show (Archive.init fs filelist).phases = filelist.map Phase.queued from rfl,
      hzero Phase.count (fun _ => rfl)]
    rfl
  · intro c n hp
    obtain ⟨f, h⟩ := hq _ hp
    cases h
  · left
    simp [Archive.init, FS.size, habsent]

theorem Kept_init (L : Libs) (S : Sys) (fs : FS) (filelist : List String) :
    Archive.Kept L S fs filelist (Archive.init fs filelist) := by
  have hq : ∀ p ∈ (Archive.init fs filelist).phases, ∃ f, p = Phase.queued f := by
    intro p hp
    obtain ⟨f, _, rfl⟩ := List.mem_map.1 hp
    exact ⟨f, rfl⟩
  refine ⟨by simp [Archive.init], fun p d h => h, ?_, ?_, ?_⟩
  · intro i t hp
    obtain ⟨f, h⟩ := hq _ hp
    cases h
  · rintro i (hp | ⟨t, hp⟩)
    · obtain ⟨f, h⟩ := hq _ hp; cases h
    · obtain ⟨f, h⟩ := hq _ hp; cases h
  · intro k f d hf _
    left
    simp [Archive.init, List.getElem?_map, hf]

theorem run_inv (L : Libs) (S : Sys) (dst : String) (fs0 : FS) (filelist : List String)
    (habsent : fs0 dst = none) (hdst : ∀ h : MD5Sum, dst ≠ cachePath S h)
    (acts : List Action) :
    ∀ σ σ1 : State, Archive.run L S dst σ acts = some σ1 →
      (∀ k tmp, Action.compress k tmp ∈ acts → tmp ≠ dst) →
      Archive.Inv S dst σ → Archive.Kept L S fs0 filelist σ →
      Archive.Inv S dst σ1 ∧ Archive.Kept L S fs0 filelist σ1 := by
  induction acts with
  | nil =>
    intro σ σ1 h _ hi hk
    simp only [Archive.run, Option.some.injEq] at h
    subst h
    exact ⟨hi, hk⟩
  | cons a rest ih =>
    intro σ σ1 h htmp hi hk
    simp only [Archive.run] at h
    cases hs : Archive.step L S dst σ a with
    | none => simp [hs] at h
    | some σ2 =>
      simp only [hs] at h
      have hstep := step_spec L S dst σ σ2 a hs
      have hi2 := Inv_step L S dst σ σ2 a hdst
        (fun k tmp ha => htmp k tmp (by rw [ha]; exact List.mem_cons_self _ _)) hi hstep
      have hk2 := Kept_step L S dst fs0 filelist σ σ2 a habsent hk hstep
      exact ih σ2 σ1 h (fun k tmp hm => htmp k tmp (List.mem_cons_of_mem _ hm)) hi2 hk2

theorem assigner_no_overflow (arrival : List result) :
    ∀ o : Int, 0 ≤ o → o ≤ maxFileOffset → (∀ i ∈ arrival, 0 ≤ i.size) →
      (∀ c ∈ (WriteGroup.assigner o (arrival.map fun i => (i, SelectCase.send))).1,
        0 ≤ c.offset ∧ (c.size = 0 ∨ c.offset + c.size ≤ maxFileOffset)) →
      o + sumSizes arrival ≤ maxFileOffset := by
  induction arrival with
  | nil => intro o _ h _ _; simpa [sumSizes] using h
  | cons i rest ih =>
    intro o ho1 ho2 hnn hok
    rw [assigner_send_cons] at hok
    have hi := hnn i (List.mem_cons_self _ _)
    obtain ⟨_, hfit⟩ := hok _ (List.mem_cons_self _ _)
    simp only at hfit
    have hle : o + i.size ≤ maxFileOffset := by
      rcases hfit with h | h
      · omega
      · exact h
    have hw : wrap64 (o + i.size) = o + i.size := by
      apply wrap64_of_isInt64
      unfold maxFileOffset at hle
      constructor <;> omega
    rw [hw] at hok
    have := ih (o + i.size) (by omega) hle (fun j hj => hnn j (List.mem_cons_of_mem _ hj))
      (fun c hc => hok c (List.mem_cons_of_mem _ hc))
    rw [sumSizes_cons]
    omega

theorem sum_count_done (phases : List Phase)
    (hdone : ∀ p ∈ phases, ∃ c n, p = Phase.written c n) :
    (phases.map Phase.count).sum = (phases.length : Int) := by
  induction phases with
  | nil => rfl
  | cons p rest ih =>
    obtain ⟨c, n, rfl⟩ := hdone p (List.mem_cons_self _ _)
    have := ih fun q hq => hdone q (List.mem_cons_of_mem _ hq)
    simp only [List.map_cons, List.sum_cons, this, Phase.count, List.length_cons,
      Nat.cast_add, Nat.cast_one]
    omega

theorem Inv_done_size (S : Sys) (dst : String) (σ : State) (hinv : Archive.Inv S dst σ)
    (hdone : σ.done)
    (hcond : ∀ c n, Phase.written c n ∈ σ.phases → (n : Int) = c.size) :
    (FS.size σ.fs dst : Int) = (σ.phases.map Phase.recorded).sum := by
  have hall : ∀ c ∈ σ.chunks, ∃ n, Phase.written c n ∈ σ.phases := by
    intro c hc
    rcases (hinv.link c).1 hc with h | h
    · obtain ⟨c1, n1, h1⟩ := hdone _ h
      cases h1
    · exact h
  have hnn : ∀ c ∈ σ.chunks, 0 ≤ c.size := by
    intro c hc
    obtain ⟨n, hn⟩ := hall c hc
    rw [← hcond c n hn]
    exact Int.ofNat_nonneg n
  obtain ⟨hs1, _⟩ := hinv.sent
  unfold WriteGroup.chunks at hs1
  have hok : ∀ c ∈ (WriteGroup.assigner 0 (σ.chunks.map fun i => (i, SelectCase.send))).1,
      0 ≤ c.offset ∧ (c.size = 0 ∨ c.offset + c.size ≤ maxFileOffset) := by
    intro c hc
    rw [hs1] at hc
    obtain ⟨n, hn⟩ := hall c hc
    obtain ⟨h1, h2, _⟩ := hinv.wrote c n hn
    have := hcond c n hn
    refine ⟨h1, ?_⟩
    rcases h2 with h | h
    · left; rw [← this, h]; rfl
    · right; rw [← this]; exact h
  have hfit := assigner_no_overflow σ.chunks 0 le_rfl (by unfold maxFileOffset; omega) hnn hok
  have hT : 0 ≤ sumSizes σ.chunks := sumSizes_nonneg _ hnn
  obtain ⟨hb, _, _, hu⟩ := assigner_layout σ.chunks 0 le_rfl hnn
    (by unfold maxFileOffset at hfit; omega)
  rw [hs1] at hb hu
  rw [← hinv.sums]
  have hupper : (FS.size σ.fs dst : Int) ≤ sumSizes σ.chunks := by
    rcases hinv.top with h | ⟨c, n, h1, _, h3⟩
    · rw [h]; simpa using hT
    · have hc : c ∈ σ.chunks := (hinv.link c).2 (Or.inr ⟨n, h1⟩)
      obtain ⟨h4, _, h5⟩ := hb c hc
      have := hcond c n h1
      rw [h3]
      push_cast
      rw [Int.toNat_of_nonneg h4]
      omega
  have hlower : sumSizes σ.chunks ≤ (FS.size σ.fs dst : Int) := by
    by_cases h0 : sumSizes σ.chunks = 0
    · rw [h0]; exact Int.ofNat_nonneg _
    · obtain ⟨c, hc, hx⟩ := (hu (sumSizes σ.chunks - 1)).2 ⟨by omega, by omega⟩
      simp only [result.range, Set.mem_Ico] at hx
      obtain ⟨n, hn⟩ := hall c hc
      obtain ⟨h4, _, h5⟩ := hinv.wrote c n hn
      have hsz := hcond c n hn
      have hn0 : n ≠ 0 := by
        intro h; rw [h] at hsz
        have : c.size = 0 := by rw [← hsz]; rfl
        omega
      have := h5 hn0
      have h6 : ((c.offset.toNat + n : Nat) : Int) ≤ (FS.size σ.fs dst : Int) :=
        Int.ofNat_le.2 this
      push_cast at h6
      rw [Int.toNat_of_nonneg h4] at h6
      omega
  omega

theorem Phase.result?_atCache (S : Sys) (p : Phase) (r : result) (h : p.result? = some r)
    (hp : Phase.atCachePath S p) : r.path = cachePath S r.sum := by
  cases p <;> simp only [Phase.result?, Option.some.injEq] at h <;> cases h
  all_goals exact hp

theorem State.unsized_spec (σ : State) (q : String) (h : σ.unsized q = true) (p : Phase)
    (hp : p ∈ σ.phases) (r : result) (hr : p.result? = some r) : r.path ≠ q := by
  unfold State.unsized at h
  have := List.all_eq_true.1 h p hp
  simp only [hr] at this
  simpa using this

theorem Sized_set (σ : State) (fs1 : FS) (o : Int) (cs : List result) (k : Nat) (p1 : Phase)
    (hsz : Archive.Sized σ)
    (hfs : ∀ p ∈ σ.phases, ∀ r, p.result? = some r → fs1 r.path = σ.fs r.path)
    (hblob : ∀ r, p1.result? = some r → ∃ b, fs1 r.path = some b ∧ (b.length : Int) = r.size)
    (hcopied : ∀ c n, p1 = Phase.written c n → (n : Int) = c.size) :
    Archive.Sized ⟨fs1, o, cs, σ.phases.set k p1⟩ := by
  constructor
  · intro p hp r hr
    rcases List.mem_or_eq_of_mem_set hp with h | h
    · obtain ⟨b, hb, hl⟩ := hsz.blob p h r hr
      exact ⟨b, by show fs1 r.path = some b; rw [hfs p h r hr]; exact hb, hl⟩
    · subst h; exact hblob r hr
  · intro c n hp
    rcases List.mem_or_eq_of_mem_set hp with h | h
    · exact hsz.copied c n h
    · exact hcopied c n h.symm

theorem Sized_step (L : Libs) (S : Sys) (dst : String) (σ σ1 : State) (a : Action)
    (hdst : ∀ h : MD5Sum, dst ≠ cachePath S h)
    (hinv : Archive.Inv S dst σ) (hsz : Archive.Sized σ)
    (hset : Archive.settled S σ a = true)
    (hstep : Archive.StepOf L S dst σ a σ1) : Archive.Sized σ1 := by
  cases hstep with
  | hash k f d hk hd =>
    exact Sized_set σ σ.fs _ _ k _ hsz (fun _ _ _ _ => rfl)
      (fun r h => by cases h) (fun c n h => by cases h)
  | hit k i b hk hb =>
    refine Sized_set σ σ.fs _ _ k _ hsz (fun _ _ _ _ => rfl) ?_ (fun c n h => by cases h)
    intro r h
    simp only [Phase.result?, Option.some.injEq] at h
    subst h
    exact ⟨b, hb, rfl⟩
  | miss k i hk hb =>
    exact Sized_set σ σ.fs _ _ k _ hsz (fun _ _ _ _ => rfl)
      (fun r h => by cases h) (fun c n h => by cases h)
  | compress k tmp i d hk hd ht =>
    refine Sized_set σ _ _ _ k _ hsz ?_ (fun r h => by cases h) (fun c n h => by cases h)
    intro p hp r hr
    obtain ⟨b, hb, _⟩ := hsz.blob p hp r hr
    have hne : r.path ≠ tmp := by
      intro h; rw [h, ht] at hb; cases hb
    exact FS.put_other _ _ hne
  | rename k i t b hk hb =>
    simp only [Archive.settled, hk, Bool.and_eq_true] at hset
    refine Sized_set σ _ _ _ k _ hsz ?_ (fun r h => by cases h) (fun c n h => by cases h)
    intro p hp r hr
    have h1 := State.unsized_spec σ _ hset.1 p hp r hr
    have h2 := State.unsized_spec σ _ hset.2 p hp r hr
    show ((σ.fs.remove t).put (cachePath S i.sum) b) r.path = σ.fs r.path
    rw [FS.put_other _ _ h2]
    simp only [FS.remove, h1, if_false]
  | restat k i b hk hb =>
    refine Sized_set σ σ.fs _ _ k _ hsz (fun _ _ _ _ => rfl) ?_ (fun c n h => by cases h)
    intro r h
    simp only [Phase.result?, Option.some.injEq] at h
    subst h
    exact ⟨b, hb, rfl⟩
  | assign k r hk =>
    refine Sized_set σ σ.fs _ _ k _ hsz (fun _ _ _ _ => rfl) ?_ (fun c n h => by cases h)
    intro r1 h
    simp only [Phase.result?, Option.some.injEq] at h
    subst h
    exact hsz.blob _ (mem_of_getElem? hk) r rfl
  | write k c fs1 hk hw =>
    have hmem : Phase.chunked c ∈ σ.phases := mem_of_getElem? hk
    have hc : c.path = cachePath S c.sum := hinv.atCache _ hmem
    have hne : c.path ≠ dst := by rw [hc]; exact fun h => hdst _ h.symm
    obtain ⟨s, _, _, _, hfs1⟩ := (InsertFile_ok_iff σ.fs fs1 dst c.path c.offset hne).1 hw
    have hfs : ∀ p ∈ σ.phases, ∀ r, p.result? = some r → fs1 r.path = σ.fs r.path := by
      intro p hp r hr
      have hr1 : r.path = cachePath S r.sum :=
        Phase.result?_atCache S p r hr (hinv.atCache p hp)
      have : r.path ≠ dst := by rw [hr1]; exact fun h => hdst _ h.symm
      rw [hfs1]
      exact FS.put_other _ _ this
    obtain ⟨b, hb, hl⟩ := hsz.blob _ hmem c rfl
    refine Sized_set σ fs1 _ _ k _ hsz hfs ?_ ?_
    · intro r h
      simp only [Phase.result?, Option.some.injEq] at h
      subst h
      exact ⟨b, by rw [hfs _ hmem c rfl]; exact hb, hl⟩
    · intro c1 n h
      obtain ⟨rfl, rfl⟩ := Phase.written.inj h
      simp only [FS.size, hb, Option.getD_some]
      exact hl

theorem Sized_init (fs : FS) (filelist : List String) :
    Archive.Sized (Archive.init fs filelist) := by
  constructor
  · intro p hp r hr
    obtain ⟨f, _, rfl⟩ := List.mem_map.1 hp
    cases hr
  · intro c n hp
    obtain ⟨f, _, h⟩ := List.mem_map.1 hp
    cases h

theorem run_sized (L : Libs) (S : Sys) (dst : String)
    (hdst : ∀ h : MD5Sum, dst ≠ cachePath S h) (acts : List Action) :
    ∀ σ σ1 : State, Archive.run L S dst σ acts = some σ1 →
      Archive.quiet L S dst σ acts = true →
      (∀ k tmp, Action.compress k tmp ∈ acts → tmp ≠ dst) →
      Archive.Inv S dst σ → Archive.Sized σ → Archive.Sized σ1 := by
  induction acts with
  | nil =>
    intro σ σ1 h _ _ _ hs
    simp only [Archive.run, Option.some.injEq] at h
    subst h
    exact hs
  | cons a rest ih =>
    intro σ σ1 h hq htmp hi hs
    simp only [Archive.run] at h
    simp only [Archive.quiet, Bool.and_eq_true] at hq
    cases hst : Archive.step L S dst σ a with
    | none => simp [hst] at h
    | some σ2 =>
      simp only [hst] at h hq
      have hstep := step_spec L S dst σ σ2 a hst
      have hi2 := Inv_step L S dst σ σ2 a hdst
        (fun k tmp ha => htmp k tmp (by rw [ha]; exact List.mem_cons_self _ _)) hi hstep
      have hs2 := Sized_step L S dst σ σ2 a hdst hi hs hq.1 hstep
      exact ih σ2 σ1 h hq.2 (fun k tmp hm => htmp k tmp (List.mem_cons_of_mem _ hm)) hi2 hs2

/-- C3 (amended). A successful run of `Archive`, the calls of its workers following one
another in any order, destination absent at the start, never a temporary name and not a
cache path. Every input file, not every distinct content hash, gets one insertion: there
are as many chunks as input files, each names the cache path of its item's sum, and their
offsets are the running sums of the recorded sizes in the order they were sent. The pack
ends where its farthest insertion ends. Whenever every insertion copied as many bytes as
were recorded for its item, the pack's size is the sum of the recorded sizes over all input
files. That is so in every run in which no `Rename` moves away or replaces a file whose
size an item has recorded: there every recorded size is the length of the blob at the item's
cache path, and the pack's size is the sum of these lengths, one for every input file. For
two input paths with the same bytes both chunks name the one cache path, the pack's size is
the sum of their two recorded sizes when both insertions copied what was recorded, and it is
twice the length of the one blob when both sizes were recorded from the blob as it finally
is, as in every run of the kind just described. -/
theorem Archive_pack_size (L : Libs) (S : Sys) (dst : String) (fs : FS)
    (filelist : List String) (acts : List Action) (σ : State)
    (habsent : fs dst = none) (hdst : ∀ h : MD5Sum, dst ≠ cachePath S h)
    (htmp : ∀ k tmp, Action.compress k tmp ∈ acts → tmp ≠ dst)
    (hrun : Archive.Runs L S dst fs filelist acts σ) :
    σ.phases.length = filelist.length ∧
    σ.chunks.length = filelist.length ∧
    (∀ p ∈ σ.phases, ∃ c n, p = Phase.written c n ∧ c.path = cachePath S c.sum ∧
      c ∈ σ.chunks) ∧
    WriteGroup.chunks σ.chunks = σ.chunks ∧
    (∀ c n, Phase.written c n ∈ σ.phases → n ≠ 0 →
      c.offset.toNat + n ≤ FS.size σ.fs dst) ∧
    (FS.size σ.fs dst = 0 ∨ ∃ c n, Phase.written c n ∈ σ.phases ∧ n ≠ 0 ∧
      FS.size σ.fs dst = c.offset.toNat + n) ∧
    ((∀ c n, Phase.written c n ∈ σ.phases → (n : Int) = c.size) →
      (FS.size σ.fs dst : Int) = (σ.phases.map Phase.recorded).sum) ∧
    (Archive.quiet L S dst (Archive.init fs filelist) acts = true →
      (∀ c n, Phase.written c n ∈ σ.phases →
        (n : Int) = c.size ∧ c.size = (FS.size σ.fs c.path : Int)) ∧
      (FS.size σ.fs dst : Int) = (σ.phases.map Phase.recorded).sum) ∧
    (∀ (a b : String) (d : List Byte), filelist = [a, b] → fs a = some d → fs b = some d →
      ∃ ca cb na nb, σ.phases = [Phase.written ca na, Phase.written cb nb] ∧
        ca.path = cachePath S (L.md5Sum d) ∧ cb.path = cachePath S (L.md5Sum d) ∧
        ((na : Int) = ca.size → (nb : Int) = cb.size →
          (FS.size σ.fs dst : Int) = ca.size + cb.size ∧
          (ca.size = (FS.size σ.fs (cachePath S (L.md5Sum d)) : Int) →
            cb.size = (FS.size σ.fs (cachePath S (L.md5Sum d)) : Int) →
            FS.size σ.fs dst = 2 * FS.size σ.fs (cachePath S (L.md5Sum d)))) ∧
        (Archive.quiet L S dst (Archive.init fs filelist) acts = true →
          FS.size σ.fs dst = 2 * FS.size σ.fs (cachePath S (L.md5Sum d)))) := by
  obtain ⟨hr, hdone⟩ := hrun
  obtain ⟨hinv, hkept⟩ := run_inv L S dst fs filelist habsent hdst acts _ σ hr htmp
    (Inv_init S dst fs filelist habsent) (Kept_init L S fs filelist)
  have hlen : σ.chunks.length = filelist.length := by
    have h1 := hinv.count
    rw [sum_count_done σ.phases hdone, hkept.len] at h1
    exact Int.ofNat_inj.1 h1
  have hquiet : Archive.quiet L S dst (Archive.init fs filelist) acts = true →
      ∀ c n, Phase.written c n ∈ σ.phases →
        (n : Int) = c.size ∧ c.size = (FS.size σ.fs c.path : Int) := by
    intro hq c n hm
    have hsz := run_sized L S dst hdst acts _ σ hr hq htmp
      (Inv_init S dst fs filelist habsent) (Sized_init fs filelist)
    obtain ⟨b, hb, hl⟩ := hsz.blob _ hm c rfl
    refine ⟨hsz.copied c n hm, ?_⟩
    simp only [FS.size, hb, Option.getD_some]
    exact hl.symm
  refine ⟨hkept.len, hlen, ?_, hinv.sent.1, fun c n h hn => (hinv.wrote c n h).2.2 hn,
    hinv.top, Inv_done_size S dst σ hinv hdone,
    fun hq => ⟨hquiet hq, Inv_done_size S dst σ hinv hdone
      (fun c n hm => (hquiet hq c n hm).1)⟩, ?_⟩
  · intro p hp
    obtain ⟨c, n, rfl⟩ := hdone p hp
    exact ⟨c, n, rfl, hinv.atCache _ hp, (hinv.link c).2 (Or.inr ⟨n, hp⟩)⟩
  · intro a b d hl ha hb
    have hl2 : σ.phases.length = 2 := by rw [hkept.len, hl]; rfl
    obtain ⟨p0, p1, hph⟩ : ∃ p0 p1, σ.phases = [p0, p1] := by
      match hσ : σ.phases, hl2 with
      | [p0, p1], _ => exact ⟨p0, p1, rfl⟩
    obtain ⟨ca, na, rfl⟩ := hdone p0 (by rw [hph]; exact List.mem_cons_self _ _)
    obtain ⟨cb, nb, rfl⟩ := hdone p1 (by rw [hph]; simp)
    have hsa : ca.sum = L.md5Sum d := by
      rcases hkept.items 0 a d (by rw [hl]; rfl) ha with h | ⟨q, h1, h2⟩
      · rw [hph] at h; cases h
      · rw [hph] at h1
        cases h1
        exact Option.some.inj h2
    have hsb : cb.sum = L.md5Sum d := by
      rcases hkept.items 1 b d (by rw [hl]; rfl) hb with h | ⟨q, h1, h2⟩
      · rw [hph] at h; cases h
      · rw [hph] at h1
        cases h1
        exact Option.some.inj h2
    have hpa : ca.path = cachePath S (L.md5Sum d) := by
      rw [← hsa]; exact hinv.atCache _ (by rw [hph]; exact List.mem_cons_self _ _)
    have hpb : cb.path = cachePath S (L.md5Sum d) := by
      rw [← hsb]
      exact hinv.atCache (Phase.written cb nb) (by rw [hph]; simp)
    have hboth : (na : Int) = ca.size → (nb : Int) = cb.size →
        (FS.size σ.fs dst : Int) = ca.size + cb.size := by
      intro hna hnb
      have hsum := Inv_done_size S dst σ hinv hdone (by
        intro c n hm
        rw [hph] at hm
        simp only [List.mem_cons, List.mem_singleton, List.not_mem_nil, or_false] at hm
        rcases hm with h | h
        · obtain ⟨rfl, rfl⟩ := Phase.written.inj h; exact hna
        · obtain ⟨rfl, rfl⟩ := Phase.written.inj h; exact hnb)
      rw [hph] at hsum
      simpa only [List.map_cons, List.map_nil, List.sum_cons, List.sum_nil, Phase.recorded,
        add_zero] using hsum
    refine ⟨ca, cb, na, nb, hph, hpa, hpb, ?_, ?_⟩
    · intro hna hnb
      refine ⟨hboth hna hnb, ?_⟩
      intro h1 h2
      have hsum := hboth hna hnb
      rw [h1, h2] at hsum
      omega
    · intro hq
      have ha1 := hquiet hq ca na (by rw [hph]; exact List.mem_cons_self _ _)
      have hb1 := hquiet hq cb nb (by rw [hph]; simp)
      have hsum := hboth ha1.1 hb1.1
      rw [ha1.2, hb1.2, hpa, hpb] at hsum
      omega

theorem sample_run_facts :
    ∃ σ : State,
      Archive.run sampleLibs sampleSys "pack" (Archive.init sampleTree ["a", "b"])
        sampleSchedule = some σ ∧
      σ.phases = [Phase.written ⟨samplePath, sampleLibs.md5Sum helloWorld, 0, 15⟩ 15,
        Phase.written ⟨samplePath, sampleLibs.md5Sum helloWorld, 15, 15⟩ 15] ∧
      FS.size σ.fs "pack" = 30 ∧ FS.size σ.fs samplePath = 15 ∧
      Archive.dedupSize sampleLibs sampleSys σ.fs ["a", "b"] = 15 := by
  have h : (Archive.run sampleLibs sampleSys "pack" (Archive.init sampleTree ["a", "b"])
      sampleSchedule).map (fun σ => (σ.phases, FS.size σ.fs "pack", FS.size σ.fs samplePath,
        Archive.dedupSize sampleLibs sampleSys σ.fs ["a", "b"])) =
      some ([Phase.written ⟨samplePath, sampleLibs.md5Sum helloWorld, 0, 15⟩ 15,
        Phase.written ⟨samplePath, sampleLibs.md5Sum helloWorld, 15, 15⟩ 15], 30, 15, 15) := by
    decide
  obtain ⟨σ, h1, h2⟩ := Option.map_eq_some'.1 h
  simp only [Prod.mk.injEq] at h2
  exact ⟨σ, h1, h2.1, h2.2.1, h2.2.2.1, h2.2.2.2⟩

theorem sample_tmp_names (k : Nat) (tmp : String)
    (h : Action.compress k tmp ∈ sampleSchedule) : tmp ≠ "pack" := by
  simp only [sampleSchedule, List.mem_cons, List.mem_singleton, List.not_mem_nil, or_false,
    Action.compress.injEq, false_or, or_false] at h
  simp at h
  rw [h.2]
  decide

/-- C3 (witness): the files `a` and `b` of `sampleTree` under `sampleSchedule`, a run in
which no blob is replaced; two chunks, a pack of 30 bytes, the sum of the two recorded sizes
and twice the length of the one blob. -/
theorem Archive_pack_size_witness :
    ∃ σ : State,
      Archive.Runs sampleLibs sampleSys "pack" sampleTree ["a", "b"] sampleSchedule σ ∧
      Archive.quiet sampleLibs sampleSys "pack" (Archive.init sampleTree ["a", "b"])
        sampleSchedule = true ∧
      σ.chunks.length = 2 ∧
      (FS.size σ.fs "pack" : Int) = (σ.phases.map Phase.recorded).sum ∧
      FS.size σ.fs "pack" = 2 * FS.size σ.fs samplePath ∧
      FS.size σ.fs "pack" = 30 := by
  obtain ⟨σ, h1, h2, h3, _, _⟩ := sample_run_facts
  have hdone : σ.done := by
    intro p hp
    rw [h2] at hp
    simp only [List.mem_cons, List.mem_singleton, List.not_mem_nil, or_false] at hp
    rcases hp with rfl | rfl
    · exact ⟨_, _, rfl⟩
    · exact ⟨_, _, rfl⟩
  have hrun : Archive.Runs sampleLibs sampleSys "pack" sampleTree ["a", "b"] sampleSchedule σ :=
    ⟨h1, hdone⟩
  have hq : Archive.quiet sampleLibs sampleSys "pack" (Archive.init sampleTree ["a", "b"])
      sampleSchedule = true := by decide
  obtain ⟨_, hlen, _, _, _, _, hsum, _, htwo⟩ :=
    Archive_pack_size sampleLibs sampleSys "pack" sampleTree ["a", "b"] sampleSchedule σ
      (by decide) sample_not_cache_path sample_tmp_names hrun
  obtain ⟨_, _, _, _, _, _, _, _, hdouble⟩ := htwo "a" "b" helloWorld rfl rfl rfl
  refine ⟨σ, hrun, hq, hlen, hsum ?_, hdouble hq, h3⟩
  intro c n hm
  rw [h2] at hm
  simp only [List.mem_cons, List.mem_singleton, List.not_mem_nil, or_false] at hm
  rcases hm with h | h
  · obtain ⟨rfl, rfl⟩ := Phase.written.inj h; rfl
  · obtain ⟨rfl, rfl⟩ := Phase.written.inj h; rfl

/-- C3 (counterexample). Two input paths with the same bytes, destination absent: the run
succeeds with one cache blob of 15 bytes and a pack of 30 bytes, while the blob lengths
summed once per distinct content hash give 15. -/
theorem Archive_duplicate_content :
    ∃ σ : State,
      Archive.Runs sampleLibs sampleSys "pack" sampleTree ["a", "b"] sampleSchedule σ ∧
      sampleTree "pack" = none ∧
      sampleTree "a" = sampleTree "b" ∧
      FS.size σ.fs samplePath = 15 ∧
      FS.size σ.fs "pack" = 30 ∧
      Archive.dedupSize sampleLibs sampleSys σ.fs ["a", "b"] = 15 := by
  obtain ⟨σ, h1, h2, h3, h4, h5⟩ := sample_run_facts
  refine ⟨σ, ⟨h1, ?_⟩, by decide, by decide, h4, h3, h5⟩
  intro p hp
  rw [h2] at hp
  simp only [List.mem_cons, List.mem_singleton, List.not_mem_nil, or_false] at hp
  rcases hp with rfl | rfl
  · exact ⟨_, _, rfl⟩
  · exact ⟨_, _, rfl⟩

/-- A run in which two workers miss the same cache path before either renames its blob,
and the second `Rename` replaces the blob whose size the first item has recorded: for the
files `a` and `bb` of `sampleTree2` the sizes recorded are 15 and 16, both insertions copy
the 16 bytes of the blob renamed last, and the pack is 32 bytes long, neither the sum 31 of
the recorded sizes nor the length of one blob. -/
theorem Archive_overlapping_run :
    ∃ σ : State,
      Archive.Runs sampleLibs sampleSys "pack" sampleTree2 ["a", "bb"] sampleOverlap σ ∧
      Archive.quiet sampleLibs sampleSys "pack" (Archive.init sampleTree2 ["a", "bb"])
        sampleOverlap = false ∧
      σ.phases = [Phase.written ⟨samplePath, sampleLibs.md5Sum helloWorld, 16, 15⟩ 16,
        Phase.written ⟨samplePath, sampleLibs.md5Sum helloWorld, 0, 16⟩ 16] ∧
      (σ.phases.map Phase.recorded).sum = 31 ∧
      FS.size σ.fs samplePath = 16 ∧
      FS.size σ.fs "pack" = 32 := by
  have h : (Archive.run sampleLibs sampleSys "pack" (Archive.init sampleTree2 ["a", "bb"])
      sampleOverlap).map (fun σ => (σ.phases, FS.size σ.fs "pack", FS.size σ.fs samplePath)) =
      some ([Phase.written ⟨samplePath, sampleLibs.md5Sum helloWorld, 16, 15⟩ 16,
        Phase.written ⟨samplePath, sampleLibs.md5Sum helloWorld, 0, 16⟩ 16], 32, 16) := by
    decide
  obtain ⟨σ, h1, h2⟩ := Option.map_eq_some'.1 h
  simp only [Prod.mk.injEq] at h2
  obtain ⟨h3, h4, h5⟩ := h2
  refine ⟨σ, ⟨h1, ?_⟩, by decide, h3, by rw [h3]; decide, h5, h4⟩
  intro p hp
  rw [h3] at hp
  simp only [List.mem_cons, List.mem_singleton, List.not_mem_nil, or_false] at hp
  rcases hp with rfl | rfl
  · exact ⟨_, _, rfl⟩
  · exact ⟨_, _, rfl⟩

theorem getElem?_set_same (l : List Phase) (k : Nat) (p q : Phase) (h : l[k]? = some p) :
    (l.set k q)[k]? = some q := by
  have hk : k < l.length := by
    by_contra hc
    rw [List.getElem?_eq_none (by omega)] at h
    cases h
  simp [List.getElem?_set, hk]

/-- The loop body of `CompressGroup` is the calls of `Archive.step` for one item with nothing
in between: the first `Stat` alone on a hit, and `Stat`, `CompressFile`, `Rename`, `Stat` on
a miss. -/
theorem CompressGroup_worker_steps (L : Libs) (S : Sys) (dst tmp : String) (σ : State)
    (k : Nat) (i r : result) (fs1 : FS) (hk : σ.phases[k]? = some (Phase.hashed i))
    (hw : CompressGroup.worker L S tmp σ.fs i SelectCase.send = .ok (r, fs1)) :
    Archive.run L S dst σ [Action.stat k] =
      some ⟨fs1, σ.offset, σ.chunks, σ.phases.set k (Phase.archived r)⟩ ∨
    Archive.run L S dst σ
      [Action.stat k, Action.compress k tmp, Action.rename k, Action.restat k] =
      some ⟨fs1, σ.offset, σ.chunks, σ.phases.set k (Phase.archived r)⟩ := by
  unfold CompressGroup.worker at hw
  cases hs : osStat S σ.fs (cachePath S i.sum) with
  | ok info =>
    left
    simp only [hs, select] at hw
    cases hw
    simp only [Archive.run, Archive.step, hk, hs]
  | error e =>
    right
    simp only [hs] at hw
    cases hc : CompressFile L S tmp σ.fs i.path with
    | error e1 => simp only [hc] at hw; cases hw
    | ok v =>
      obtain ⟨tmpfile, fsa⟩ := v
      simp only [hc] at hw
      cases hr : osRename fsa tmpfile (cachePath S i.sum) with
      | error e2 => simp only [hr] at hw; cases hw
      | ok fsb =>
        simp only [hr] at hw
        cases hs2 : osStat S fsb (cachePath S i.sum) with
        | error e3 => simp only [hs2] at hw; cases hw
        | ok info2 =>
          simp only [hs2, select] at hw
          cases hw
          simp only [Archive.run, Archive.step, hk, hs, hc, hr, hs2,
            getElem?_set_same _ _ _ _ hk, List.set_set]

theorem CompressGroup_worker_steps_witness :
    Archive.run sampleLibs sampleSys "pack"
        ⟨sampleTree, 0, [], [Phase.hashed ⟨"a", sampleLibs.md5Sum helloWorld, 0, 0⟩,
          Phase.queued "b"]⟩ [Action.stat 0] =
      some ⟨sampleCached, 0, [],
        [Phase.archived ⟨samplePath, sampleLibs.md5Sum helloWorld, 0, 15⟩, Phase.queued "b"]⟩ ∨
    Archive.run sampleLibs sampleSys "pack"
        ⟨sampleTree, 0, [], [Phase.hashed ⟨"a", sampleLibs.md5Sum helloWorld, 0, 0⟩,
          Phase.queued "b"]⟩
        [Action.stat 0, Action.compress 0 "/tmp/spack1", Action.rename 0, Action.restat 0] =
      some ⟨sampleCached, 0, [],
        [Phase.archived ⟨samplePath, sampleLibs.md5Sum helloWorld, 0, 15⟩, Phase.queued "b"]⟩ :=
  CompressGroup_worker_steps sampleLibs sampleSys "pack" "/tmp/spack1"
    ⟨sampleTree, 0, [], [Phase.hashed ⟨"a", sampleLibs.md5Sum helloWorld, 0, 0⟩,
      Phase.queued "b"]⟩ 0 ⟨"a", sampleLibs.md5Sum helloWorld, 0, 0⟩
    ⟨samplePath, sampleLibs.md5Sum helloWorld, 0, 15⟩ sampleCached rfl rfl

/-- A run in which the blob of `a` is replaced by the blob of `bb` after the item of `a` was
inserted: the sizes recorded are 15 and 16, each insertion copies the blob its size was
recorded from, and the pack is 31 bytes long, the sum of the two recorded sizes, while the
one blob left at the cache path has 16 bytes. -/
theorem Archive_replaced_blob_run :
    ∃ σ : State,
      Archive.Runs sampleLibs sampleSys "pack" sampleTree2 ["a", "bb"] sampleReplace σ ∧
      Archive.quiet sampleLibs sampleSys "pack" (Archive.init sampleTree2 ["a", "bb"])
        sampleReplace = false ∧
      σ.phases = [Phase.written ⟨samplePath, sampleLibs.md5Sum helloWorld, 0, 15⟩ 15,
        Phase.written ⟨samplePath, sampleLibs.md5Sum helloWorld, 15, 16⟩ 16] ∧
      (σ.phases.map Phase.recorded).sum = 31 ∧
      FS.size σ.fs samplePath = 16 ∧
      FS.size σ.fs "pack" = 31 := by
  have h : (Archive.run sampleLibs sampleSys "pack" (Archive.init sampleTree2 ["a", "bb"])
      sampleReplace).map (fun σ => (σ.phases, FS.size σ.fs "pack", FS.size σ.fs samplePath)) =
      some ([Phase.written ⟨samplePath, sampleLibs.md5Sum helloWorld, 0, 15⟩ 15,
        Phase.written ⟨samplePath, sampleLibs.md5Sum helloWorld, 15, 16⟩ 16], 31, 16) := by
    decide
  obtain ⟨σ, h1, h2⟩ := Option.map_eq_some'.1 h
  simp only [Prod.mk.injEq] at h2
  obtain ⟨h3, h4, h5⟩ := h2
  refine ⟨σ, ⟨h1, ?_⟩, by decide, h3, by rw [h3]; decide, h5, h4⟩
  intro p hp
  rw [h3] at hp
  simp only [List.mem_cons, List.mem_singleton, List.not_mem_nil, or_false] at hp
  rcases hp with rfl | rfl
  · exact ⟨_, _, rfl⟩
  · exact ⟨_, _, rfl⟩

end Spack
